import Mathlib

/-!
Verification of the tree engine of an interactive JSON viewer.

The program keeps an arena (`SlotMap<DefaultKey, Node>`) of nodes; each node
stores an optional parent handle, a `highlighted` flag and its payload, which is
either a terminal scalar or a hidable composite (array or object) holding the
handles of its children.  The operations verified here are the collapse-aware
depth-first cursor moves (`next_node_down`, `next_node_up`), the two flag
toggles, the text renderer (`to_text_inner`) and the current-line locator
(`find_line_recursive`), plus the scroll-threshold computation of the event
loop (in `main.rs`).

Embedding conventions:
* handles (`DefaultKey`) are `Nat` indexes into a `List Node`; the slot map is
  never mutated structurally after construction, so `SlotMap` lookup is plain
  list indexing;
* every Rust code path that can panic (`unwrap`, `unreachable!`) or diverge
  (unbounded `loop` over an arena whose parent chain could be cyclic) is
  modelled in `Option`: `none` is an aborted execution.  Loops take a fuel
  argument; callers pass `slotMap.length + 1`, which bounds every parent chain
  and every descent chain of a well-formed arena, so fuel exhaustion can only
  happen on arenas no run of the program can build;
* `serde_json` numbers are modelled as `Int` (no claim depends on float
  formatting); styling (`Stylize`) is dropped: a rendered `Text` is its list of
  line contents, which is all the claims about line boundaries need.
-/

namespace JsonTui

abbrev Key := Nat

/-- Scalar payload of a terminal node (`serde_json::Value` restricted to the
scalar cases, numbers modelled as `Int`). -/
inductive Value : Type where
  | null : Value
  | bool (b : Bool) : Value
  | num (n : Int) : Value
  | str (s : String) : Value
deriving DecidableEq, Repr

/-- `enum NonTerminalNode` from `node.rs`: the child list of a composite. -/
inductive NonTerminalNode : Type where
  | array (children : List Key) : NonTerminalNode
  | object (entries : List (String × Key)) : NonTerminalNode
deriving DecidableEq, Repr

/-- `struct HidableValue`: a composite payload with its collapse flag. -/
structure HidableValue : Type where
  visible : Bool
  node : NonTerminalNode
deriving DecidableEq, Repr

/-- `enum NodeType`. -/
inductive NodeType : Type where
  | terminal (v : Value) : NodeType
  | nonTerminal (hv : HidableValue) : NodeType
deriving DecidableEq, Repr

/-- `struct Node`. -/
structure Node : Type where
  parent : Option Key
  highlighted : Bool
  node : NodeType
deriving DecidableEq, Repr

/-- `struct Tree`: root handle, arena, cursor handle. -/
structure Tree : Type where
  root : Key
  slotMap : List Node
  currentNode : Key
deriving DecidableEq, Repr

/-- `Node::is_visible`: terminals are always visible, composites report their
flag. -/
def Node.is_visible (n : Node) : Bool :=
  match n.node with
  | .terminal _ => true
  | .nonTerminal v => v.visible

/-- `Tree::key_to_node` is `slot_map.get(key).unwrap()`; the `unwrap` panic is
the `none` case at use sites. -/
def keyToNode? (t : Tree) (k : Key) : Option Node :=
  t.slotMap[k]?

/-- `self.key_to_node_mut(k).highlighted = b` (an `unwrap` panic when the
handle is dead). -/
def setHighlight (t : Tree) (k : Key) (b : Bool) : Option Tree :=
  match t.slotMap[k]? with
  | none => none
  | some n => some { t with slotMap := t.slotMap.set k { n with highlighted := b } }

/-- `NonTerminalNode::find_last`.  The array arm is `arr.last().copied()` and
is total; the object arm is `obj.last().unwrap()`, which panics on an empty
object — hence the outer `Option` (`none` = panic). -/
def NonTerminalNode.find_last : NonTerminalNode → Option (Option Key)
  | .array arr => some arr.getLast?
  | .object obj =>
    match obj.getLast? with
    | none => none
    | some e => some (some e.2)

/-- `NonTerminalNode::find_next_key`: position of `key` in the child list, then
the element one past it, guarded by `i < len - 1`. -/
def NonTerminalNode.find_next_key : NonTerminalNode → Key → Option Key
  | .array arr, key =>
    (arr.findIdx? (fun k => k == key)).bind
      (fun i => if i < arr.length - 1 then arr[i + 1]? else none)
  | .object ob, key =>
    (ob.findIdx? (fun e => e.2 == key)).bind
      (fun i => if i < ob.length - 1 then (ob[i + 1]?).map Prod.snd else none)

/-- `NonTerminalNode::find_previous_key`: position of `key`, then the element
one before it, guarded by `i > 0`. -/
def NonTerminalNode.find_previous_key : NonTerminalNode → Key → Option Key
  | .array arr, key =>
    (arr.findIdx? (fun k => k == key)).bind
      (fun i => if 0 < i then arr[i - 1]? else none)
  | .object ob, key =>
    (ob.findIdx? (fun e => e.2 == key)).bind
      (fun i => if 0 < i then (ob[i - 1]?).map Prod.snd else none)

/-- The upward-walking `loop` that `next_node_down` runs (verbatim in both the
terminal arm and the collapsed-composite arm of the `match`): climb parents
until one of them has a sibling right after the child we came from.  A dead
`current_key` panics (`key_to_node`), a terminal parent is `unreachable!()`;
an invalid parent handle merely yields no sibling at that level. -/
def walkUpLoop (t : Tree) : Nat → Key → Option (Option Key)
  | 0, _ => none
  | fuel + 1, currentKey => do
    let cur ← keyToNode? t currentKey
    let nextKey : Option Key ←
      (match cur.parent with
      | none => some none
      | some pk =>
        match t.slotMap[pk]? with
        | none => some none
        | some pn =>
          match pn.node with
          | .terminal _ => none
          | .nonTerminal v => some (v.node.find_next_key currentKey))
    match nextKey with
    | some k => some (some k)
    | none =>
      match cur.parent with
      | none => some none
      | some k => walkUpLoop t fuel k

/-- `Tree::next_node_down`.  Returns the updated tree and the Rust return
value; `none` is a panic.  Side effects exactly as in the source: clear the
highlight of the current node first, move if a next key was found, then set
the highlight of the (possibly unchanged) current node. -/
def nextNodeDown (t : Tree) : Option (Tree × Option Key) := do
  let t1 ← setHighlight t t.currentNode false
  let cur ← keyToNode? t1 t.currentNode
  let nextKey : Option Key ←
    (match cur.node with
    | .terminal _ => walkUpLoop t1 (t1.slotMap.length + 1) t.currentNode
    | .nonTerminal hv =>
      if hv.visible = false then
        walkUpLoop t1 (t1.slotMap.length + 1) t.currentNode
      else
        match hv.node with
        | .array arr => some arr.head?
        | .object obj =>
          -- `obj.first().unwrap()`: panics on an empty visible object
          match obj.head? with
          | none => none
          | some e => some (some e.2))
  let t2 := match nextKey with
    | some k => { t1 with currentNode := k }
    | none => t1
  let t3 ← setHighlight t2 t2.currentNode true
  pure (t3, nextKey)

/-- The descending `loop` of `next_node_up`: while the candidate previous node
is a visible composite, replace it by its last child (`find_last`, which panics
on an empty object); stop on a terminal or a collapsed composite.  When the
candidate becomes `none` the loop breaks with the original current node's
parent (`curParent`).  A dead candidate handle panics (`key_to_node`). -/
def descendLoop (t : Tree) (curParent : Option Key) : Nat → Option Key → Option (Option Key)
  | 0, _ => none
  | _ + 1, none => some curParent
  | fuel + 1, some k => do
    let node ← keyToNode? t k
    match node.node with
    | .terminal _ => some (some k)
    | .nonTerminal v =>
      if v.visible = false then
        some (some k)
      else do
        let nk ← v.node.find_last
        descendLoop t curParent fuel nk

/-- `Tree::next_node_up`.  The starting candidate is the previous sibling
within the parent's child list — or the parent itself when the parent is a
collapsed composite; a terminal parent is `unreachable!()`, a dead parent
handle yields no candidate (plain `slot_map.get`). -/
def nextNodeUp (t : Tree) : Option (Tree × Option Key) := do
  let t1 ← setHighlight t t.currentNode false
  let cur ← keyToNode? t1 t.currentNode
  let previousKey : Option Key ←
    (match cur.parent with
    | none => some none
    | some pk =>
      match t1.slotMap[pk]? with
      | none => some none
      | some pn =>
        match pn.node with
        | .terminal _ => none
        | .nonTerminal v =>
          if v.visible = false then some (some pk)
          else some (v.node.find_previous_key t.currentNode))
  let nextKey ← descendLoop t1 cur.parent (t1.slotMap.length + 1) previousKey
  let t2 := match nextKey with
    | some k => { t1 with currentNode := k }
    | none => t1
  let t3 ← setHighlight t2 t2.currentNode true
  pure (t3, nextKey)

/-- The common ending of both cursor moves, given the already-clean state `t1`
and the computed next key: move if some, then highlight the current node. -/
def moveTail (t1 : Tree) (nextKey : Option Key) : Option (Tree × Option Key) := do
  let t2 := match nextKey with
    | some k => { t1 with currentNode := k }
    | none => t1
  let t3 ← setHighlight t2 t2.currentNode true
  pure (t3, nextKey)

/-- `Tree::toggle_current_node_visibility`: `unwrap` the current node (panic on
a dead handle), do nothing on a terminal, flip `visible` on a composite. -/
def toggleCurrentNodeVisibility (t : Tree) : Option Tree :=
  match t.slotMap[t.currentNode]? with
  | none => none
  | some n =>
    match n.node with
    | .terminal _ => some t
    | .nonTerminal v =>
      some { t with
        slotMap := t.slotMap.set t.currentNode
          { n with node := .nonTerminal { v with visible := !v.visible } } }

/-- `Tree::toggle_current_node_highlight`. -/
def toggleCurrentNodeHighlight (t : Tree) : Option Tree :=
  match t.slotMap[t.currentNode]? with
  | none => none
  | some n =>
    some { t with slotMap := t.slotMap.set t.currentNode { n with highlighted := !n.highlighted } }

/-! ### Text renderer (`to_text_inner`)

`ratatui::Text` is modelled as its list of line contents (`List String`);
styling — including the highlight inversion applied at the end of
`to_text_inner`, which maps spans to styled spans but keeps the line structure
intact — is dropped. -/

/-- Character-level split on newlines; written over `List Char` so that the
kernel can evaluate it on concrete inputs. -/
def splitNl : List Char → List (List Char)
  | [] => [[]]
  | c :: cs =>
    if c = '\n' then [] :: splitNl cs
    else
      match splitNl cs with
      | [] => [[c]]
      | h :: tl => (c :: h) :: tl

/-- `Text::raw`, which splits its argument with `str::lines()` (split on
newlines, no trailing empty line). -/
def textRaw (s : String) : List String :=
  let parts := (splitNl s.toList).map (fun l => String.mk l)
  match parts.getLast? with
  | some lastPart => if lastPart = "" then parts.dropLast else parts
  | none => parts

/-- `Text::push_span` (content only): append to the last line, or start a
line if there is none. -/
def pushStr : List String → String → List String
  | [], s => [s]
  | [x], s => [x ++ s]
  | x :: xs, s => x :: pushStr xs s

/-- `join_text`: `b.lines.split_at(1)` panics when `b` has no lines (the
`none` case); otherwise push `b`'s first line onto `a`'s last line and append
the rest. -/
def joinText (a b : List String) : Option (List String) :=
  match b with
  | [] => none
  | bHead :: bRest => some (pushStr a bHead ++ bRest)

/-- `Tree::INDENT`. -/
def INDENT : String := "  "

/-- `Self::INDENT.repeat(n)`. -/
def indentRepeat (n : Nat) : String :=
  String.join (List.replicate n INDENT)

/-- `format!("{n}")` for the scalar payloads; `Value::Null` is rendered by the
source as `Text::raw("{{}}")`, i.e. the literal four characters `\x7b\x7b\x7d\x7d`
(`Text::raw` does no `format!` escaping). -/
def renderScalar : Value → String
  | .num n => toString n
  | .bool b => if b then "true" else "false"
  | .str s => "\"" ++ s ++ "\""
  | .null => "\x7b\x7b\x7d\x7d"

mutual

/-- `Tree::to_text_inner` (content of the styled text).  Fuel decreases on
every recursive call; `none` is a panic or fuel exhaustion (the latter only on
arenas with a cyclic child graph, which no program run can build). -/
def toTextInner (t : Tree) : Nat → Nat → Key → Option (List String)
  | 0, _, _ => none
  | fuel + 1, indentLevel, k => do
    let node ← keyToNode? t k
    match node.node with
    | .terminal v => some (textRaw (renderScalar v))
    | .nonTerminal hv =>
      if hv.visible then
        match hv.node with
        | .array arr =>
          toTextArrLoop t fuel (indentLevel + 1) (textRaw "[\n") arr
        | .object ob =>
          toTextObjLoop t fuel (indentLevel + 1) (textRaw "\x7b\n") ob
      else if hv.node matches .array _ then
        some (textRaw "[...]")
      else
        some (textRaw "\x7b...\x7d")
termination_by structural fuel _ _ => fuel

/-- The `for (i, v) in array.iter().enumerate()` loop of the array arm: indent
and render each child, then either the separator `",\n"` or the dedented
closing `"\n…]"` after the last child.  An empty array never enters the loop
and keeps the sole `"["` line. -/
def toTextArrLoop (t : Tree) : Nat → Nat → List String → List Key → Option (List String)
  | 0, _, _, _ => none
  | _ + 1, _, ret, [] => some ret
  | fuel + 1, indentLevel, ret, [k] => do
    let sub ← toTextInner t fuel indentLevel k
    let tmp ← joinText (textRaw (indentRepeat indentLevel)) sub
    joinText (ret ++ tmp) (textRaw ("\n" ++ indentRepeat (indentLevel - 1) ++ "]"))
  | fuel + 1, indentLevel, ret, k :: ks => do
    let sub ← toTextInner t fuel indentLevel k
    let tmp ← joinText (textRaw (indentRepeat indentLevel)) sub
    let ret2 ← joinText (ret ++ tmp) (textRaw ",\n")
    toTextArrLoop t fuel indentLevel ret2 ks
termination_by structural fuel _ _ _ => fuel

/-- The loop of the object arm: the `"{indent}\"key\": "` prefix is pushed as a
fresh line, the child's first rendered line is joined onto it. -/
def toTextObjLoop (t : Tree) : Nat → Nat → List String → List (String × Key) → Option (List String)
  | 0, _, _, _ => none
  | _ + 1, _, ret, [] => some ret
  | fuel + 1, indentLevel, ret, [e] => do
    let sub ← toTextInner t fuel indentLevel e.2
    let ret2 ←
      joinText (ret ++ textRaw (indentRepeat indentLevel ++ "\"" ++ e.1 ++ "\": ")) sub
    joinText ret2 (textRaw ("\n" ++ indentRepeat (indentLevel - 1) ++ "\x7d"))
  | fuel + 1, indentLevel, ret, e :: es => do
    let sub ← toTextInner t fuel indentLevel e.2
    let ret2 ←
      joinText (ret ++ textRaw (indentRepeat indentLevel ++ "\"" ++ e.1 ++ "\": ")) sub
    let ret3 ← joinText ret2 (textRaw ",\n")
    toTextObjLoop t fuel indentLevel ret3 es
termination_by structural fuel _ _ _ => fuel

end

/-- `Tree::to_text`: render from the root, at indent level `0`.  The fuel
`2 * |slotMap| + 2` bounds the call count of the mutual recursion (one call
per node plus one per child-list element) for every arena the program can
build. -/
def toText (t : Tree) : Option (List String) :=
  toTextInner t (2 * t.slotMap.length + 2) 0 t.root

mutual

/-- `Tree::find_line_recursive`.  The `&mut usize` counter is threaded through
as state: the result is `(found, counter)` where `found` is the `Option<usize>`
the Rust function returns and `counter` the counter after the call.  A dead
handle panics (`key_to_node`); collapsed composites are counted exactly as
expanded ones — the function never reads `visible`. -/
def findLineRecursive (t : Tree) : Nat → Nat → Key → Option (Option Nat × Nat)
  | 0, _, _ => none
  | fuel + 1, lineCounter, k =>
    if k = t.currentNode then some (some lineCounter, lineCounter)
    else do
      let node ← keyToNode? t k
      match node.node with
      | .terminal _ => some (none, lineCounter)
      | .nonTerminal hv =>
        match hv.node with
        | .array arr => do
          let r ← findLineChildren t fuel (lineCounter + 1) arr
          match r.1 with
          | some n => some (some n, r.2)
          | none => some (none, r.2 + 1)
        | .object ob => do
          let r ← findLineChildren t fuel (lineCounter + 1) (ob.map Prod.snd)
          match r.1 with
          | some n => some (some n, r.2)
          | none => some (none, r.2 + 1)
termination_by structural fuel _ _ => fuel

/-- The child loop of `find_line_recursive`: recurse into each child,
short-circuit on a hit, and add the one separator line between consecutive
children (`if i < len - 1`). -/
def findLineChildren (t : Tree) : Nat → Nat → List Key → Option (Option Nat × Nat)
  | 0, _, _ => none
  | _ + 1, lineCounter, [] => some (none, lineCounter)
  | fuel + 1, lineCounter, [k] => findLineRecursive t fuel lineCounter k
  | fuel + 1, lineCounter, k :: ks => do
    let r ← findLineRecursive t fuel lineCounter k
    match r.1 with
    | some n => some (some n, r.2)
    | none => findLineChildren t fuel (r.2 + 1) ks
termination_by structural fuel _ _ => fuel

end

/-- `Tree::find_current_line`: run the locator from the root with counter `0`;
if the walk never meets the current node the final counter is returned. -/
def findCurrentLine (t : Tree) : Option Nat := do
  let r ← findLineRecursive t (2 * t.slotMap.length + 2) 0 t.root
  match r.1 with
  | none => some r.2
  | some n => some n

/-- The scroll-threshold block of `run` in `main.rs`: given the text height
`total_height` (the layout height minus the two border rows) and the current
scroll offset, `(up_clamp, bot_clamp) = (total_height/3 + scroll_y,
(total_height/3)*2 + scroll_y)`. -/
def computeClamps (totalHeight scrollY : Nat) : Nat × Nat :=
  let firstThird := totalHeight / 3
  let secondThird := firstThird * 2
  (firstThird + scrollY, secondThird + scrollY)

/-! ### Specification-side model

The spec (§3, §4.2) describes the document as a tree and defines the "visible
order" as the depth-first pre-order over it in which a collapsed composite
contributes itself but none of its descendants.  `KTree` is that tree shape
with each node labelled by its arena handle; `Rep` states that an arena
realizes a given `KTree` (parent back-references included); `KTree.vo` is the
spec's visible order. -/

/-- The keyed shape of a document tree: each node carries its arena handle,
composites carry their collapse flag.  Object entry strings and scalar
payloads are irrelevant to traversal and are left to `Rep`. -/
inductive KTree : Type where
  | term (k : Key) : KTree
  | arr (k : Key) (visible : Bool) (cs : List KTree) : KTree
  | obj (k : Key) (visible : Bool) (cs : List KTree) : KTree

/-- The arena handle at the root of a shape. -/
def KTree.key : KTree → Key
  | .term k => k
  | .arr k _ _ => k
  | .obj k _ _ => k

mutual

/-- All handles of a shape, in pre-order. -/
def KTree.keys : KTree → List Key
  | .term k => [k]
  | .arr k _ cs => k :: keysList cs
  | .obj k _ cs => k :: keysList cs

def keysList : List KTree → List Key
  | [] => []
  | c :: cs => c.keys ++ keysList cs

end

mutual

/-- The visible order (spec §4.2): depth-first pre-order in which a composite
with `visible = false` contributes itself but none of its descendants, and a
visible composite contributes itself followed by the visible order of each
child in turn. -/
def KTree.vo : KTree → List Key
  | .term k => [k]
  | .arr k visible cs => k :: (if visible then voList cs else [])
  | .obj k visible cs => k :: (if visible then voList cs else [])

def voList : List KTree → List Key
  | [] => []
  | c :: cs => c.vo ++ voList cs

end

mutual

/-- `true` when no composite anywhere in the shape has an empty child list. -/
def KTree.noEmptyB : KTree → Bool
  | .term _ => true
  | .arr _ _ cs => !cs.isEmpty && noEmptyList cs
  | .obj _ _ cs => !cs.isEmpty && noEmptyList cs

def noEmptyList : List KTree → Bool
  | [] => true
  | c :: cs => c.noEmptyB && noEmptyList cs

end

/-- The element right after the first occurrence of `c`. -/
def listSucc : List Key → Key → Option Key
  | [], _ => none
  | x :: rest, c => if x = c then rest.head? else listSucc rest c

/-- The element right before the first occurrence of `c`. -/
def listPred : List Key → Key → Option Key
  | [], _ => none
  | x :: rest, c =>
    if x = c then none
    else
      match rest with
      | [] => none
      | y :: _ => if y = c then some x else listPred rest c

/-- The arena realizes the shape `kt` below parent `par`: the handle of each
shape node is live, stores exactly that parent back-reference, the matching
payload kind and collapse flag, and child handle lists that spell out the
shape's children (object entries carry arbitrary strings).  The `highlighted`
flag is unconstrained, so `Rep` is stable under highlight updates. -/
inductive Rep (t : Tree) : Option Key → KTree → Prop where
  | term {par : Option Key} {k : Key} {v : Value} {hl : Bool}
      (h : t.slotMap[k]? = some ⟨par, hl, .terminal v⟩) :
      Rep t par (.term k)
  | arr {par : Option Key} {k : Key} {vis hl : Bool} {cs : List KTree}
      (h : t.slotMap[k]? = some ⟨par, hl, .nonTerminal ⟨vis, .array (cs.map KTree.key)⟩⟩)
      (hcs : ∀ c ∈ cs, Rep t (some k) c) :
      Rep t par (.arr k vis cs)
  | obj {par : Option Key} {k : Key} {vis hl : Bool} {es : List (String × Key)} {cs : List KTree}
      (h : t.slotMap[k]? = some ⟨par, hl, .nonTerminal ⟨vis, .object es⟩⟩)
      (hes : es.map Prod.snd = cs.map KTree.key)
      (hcs : ∀ c ∈ cs, Rep t (some k) c) :
      Rep t par (.obj k vis cs)

/-- Well-formed tree state: the arena realizes the shape `kt` at the root
(parentless), the root handle is the shape's root, and handles are globally
distinct. -/
def WF (t : Tree) (kt : KTree) : Prop :=
  Rep t none kt ∧ kt.key = t.root ∧ kt.keys.Nodup

/-- One zipper frame: `st` sits among the children of composite `pk` (an
object when `isObj`), with the given siblings around it. -/
structure Frame : Type where
  pk : Key
  pvis : Bool
  isObj : Bool
  before : List KTree
  after : List KTree

/-- Rebuild the parent shape from a frame and the child in focus. -/
def Frame.subtree (f : Frame) (st : KTree) : KTree :=
  if f.isObj then .obj f.pk f.pvis (f.before ++ st :: f.after)
  else .arr f.pk f.pvis (f.before ++ st :: f.after)

/-- Plug a shape into a context, innermost frame first. -/
def plug (st : KTree) : List Frame → KTree
  | [] => st
  | f :: fs => plug (f.subtree st) fs

/-- Keys preceding the focus subtree's block in the visible order. -/
def ctxBefore : List Frame → List Key
  | [] => []
  | f :: fs => ctxBefore fs ++ f.pk :: voList f.before

/-- Keys following the focus subtree's block in the visible order. -/
def ctxAfter : List Frame → List Key
  | [] => []
  | f :: fs => voList f.after ++ ctxAfter fs

/-- The key of the first following sibling found walking outward. -/
def ctxNextSib : List Frame → Option Key
  | [] => none
  | f :: fs =>
    match f.after with
    | [] => ctxNextSib fs
    | a :: _ => some a.key

/-- The parent handle of the focus of a context. -/
def ctxParent (par0 : Option Key) : List Frame → Option Key
  | [] => par0
  | f :: _ => some f.pk

/-! ### Concrete example trees

Shared inputs for the concrete evaluations below.  Handles follow the order
`Tree::from_value` would allocate them (parent before children, children in
document order). -/

/-- The document `null` (a single terminal). -/
def treeNull : Tree :=
  ⟨0, [⟨none, true, .terminal .null⟩], 0⟩

/-- The document `[[1,2],3]` with the inner array collapsed and the cursor on
the terminal `3`. -/
def treeCollapsed : Tree where
  root := 0
  slotMap := [
    ⟨none, false, .nonTerminal ⟨true, .array [1, 2]⟩⟩,
    ⟨some 0, false, .nonTerminal ⟨false, .array [3, 4]⟩⟩,
    ⟨some 0, true, .terminal (.num 3)⟩,
    ⟨some 1, false, .terminal (.num 1)⟩,
    ⟨some 1, false, .terminal (.num 2)⟩]
  currentNode := 2

/-- The document `[[],5]` with the cursor on the empty (visible) array. -/
def treeEmptyArrDown : Tree where
  root := 0
  slotMap := [
    ⟨none, false, .nonTerminal ⟨true, .array [1, 2]⟩⟩,
    ⟨some 0, true, .nonTerminal ⟨true, .array []⟩⟩,
    ⟨some 0, false, .terminal (.num 5)⟩]
  currentNode := 1

/-- The shape of `treeEmptyArrDown`. -/
def ktEmptyArr : KTree := .arr 0 true [.arr 1 true [], .term 2]

/-- The document `[{},5]` with the cursor on the empty (visible) object. -/
def treeEmptyObjDown : Tree where
  root := 0
  slotMap := [
    ⟨none, false, .nonTerminal ⟨true, .array [1, 2]⟩⟩,
    ⟨some 0, true, .nonTerminal ⟨true, .object []⟩⟩,
    ⟨some 0, false, .terminal (.num 5)⟩]
  currentNode := 1

/-- The document `[{},1]` with the cursor on the terminal `1`. -/
def treeEmptyObjUp : Tree where
  root := 0
  slotMap := [
    ⟨none, false, .nonTerminal ⟨true, .array [1, 2]⟩⟩,
    ⟨some 0, false, .nonTerminal ⟨true, .object []⟩⟩,
    ⟨some 0, true, .terminal (.num 1)⟩]
  currentNode := 2

/-- The document `[1,2]` with the cursor on the terminal `2` (the last node of
the visible order, and not its first node). -/
def treeTwoAtLast : Tree where
  root := 0
  slotMap := [
    ⟨none, false, .nonTerminal ⟨true, .array [1, 2]⟩⟩,
    ⟨some 0, false, .terminal (.num 1)⟩,
    ⟨some 0, true, .terminal (.num 2)⟩]
  currentNode := 2

/-- The shape of `treeTwoAtLast`. -/
def ktTwo : KTree := .arr 0 true [.term 1, .term 2]

/-- The document `[1,2]` with the cursor on the terminal `1`. -/
def treeTwoAtMid : Tree where
  root := 0
  slotMap := [
    ⟨none, false, .nonTerminal ⟨true, .array [1, 2]⟩⟩,
    ⟨some 0, true, .terminal (.num 1)⟩,
    ⟨some 0, false, .terminal (.num 2)⟩]
  currentNode := 1

/-- The document `[1,2]` with the cursor on the root array. -/
def treeTwoAtRoot : Tree where
  root := 0
  slotMap := [
    ⟨none, true, .nonTerminal ⟨true, .array [1, 2]⟩⟩,
    ⟨some 0, false, .terminal (.num 1)⟩,
    ⟨some 0, false, .terminal (.num 2)⟩]
  currentNode := 0

/-- The document `null` with the highlight switched off (as after
`toggle_current_node_highlight`). -/
def treeNullOff : Tree :=
  ⟨0, [⟨none, false, .terminal .null⟩], 0⟩

/-! ### Cursor-move sequences and the highlight invariant -/

/-- Exactly one node carries `highlighted = true`, namely the (live) current
node. -/
def OneHighlighted (t : Tree) : Prop :=
  (∃ n, t.slotMap[t.currentNode]? = some n) ∧
  ∀ k n, t.slotMap[k]? = some n → (n.highlighted = true ↔ k = t.currentNode)

/-- A cursor-move input event: down or up. -/
inductive Move : Type where
  | down : Move
  | up : Move
deriving DecidableEq, Repr

/-- Run one move, keeping only the tree state. -/
def applyMove (t : Tree) : Move → Option Tree
  | .down => (nextNodeDown t).map Prod.fst
  | .up => (nextNodeUp t).map Prod.fst

/-- Run a finite sequence of moves; `none` as soon as one call panics. -/
def applyMoves : Tree → List Move → Option Tree
  | t, [] => some t
  | t, m :: ms =>
    match applyMove t m with
    | none => none
    | some t2 => applyMoves t2 ms

/-! ### State bookkeeping lemmas -/

theorem setHighlight_eq_some {t : Tree} {k : Key} {b : Bool} {t2 : Tree}
    (h : setHighlight t k b = some t2) :
    t2.root = t.root ∧ t2.currentNode = t.currentNode ∧
    t2.slotMap.length = t.slotMap.length ∧
    ∃ n, t.slotMap[k]? = some n ∧
      t2.slotMap[k]? = some { n with highlighted := b } ∧
      ∀ j, j ≠ k → t2.slotMap[j]? = t.slotMap[j]? := by
  unfold setHighlight at h
  cases hn : t.slotMap[k]? with
  | none => rw [hn] at h; exact absurd h (by simp)
  | some n =>
    rw [hn] at h
    cases h
    have hk : k < t.slotMap.length := (List.getElem?_eq_some_iff.mp hn).1
    refine ⟨rfl, rfl, by simp, n, rfl, ?_, ?_⟩
    · simp [List.getElem?_set_self hk]
    · intro j hj
      simp [List.getElem?_set_ne (fun he => hj he.symm)]

theorem setHighlight_some_of_mem {t : Tree} {k : Key} {b : Bool} {n : Node}
    (hn : t.slotMap[k]? = some n) :
    setHighlight t k b = some { t with slotMap := t.slotMap.set k { n with highlighted := b } } := by
  unfold setHighlight
  rw [hn]

/-! ### Successor and predecessor in a duplicate-free list -/

theorem listSucc_append_cons {B A : List Key} {c : Key} (h : c ∉ B) :
    listSucc (B ++ c :: A) c = A.head? := by
  induction B with
  | nil => simp [listSucc]
  | cons b B ih =>
    have hb : b ≠ c := fun he => h (he ▸ List.mem_cons_self b B)
    simp only [List.cons_append, listSucc, if_neg hb]
    exact ih fun hm => h (List.mem_cons_of_mem _ hm)

theorem listPred_cons_cons {x y c : Key} {rest : List Key} (hx : x ≠ c) (hy : y ≠ c) :
    listPred (x :: y :: rest) c = listPred (y :: rest) c := by
  simp [listPred, hx, hy]

theorem listPred_cons_eq {x c : Key} {rest : List Key} (hx : x ≠ c) :
    listPred (x :: c :: rest) c = some x := by
  simp [listPred, hx]

theorem listPred_append_cons {B A : List Key} {c : Key} (h : c ∉ B) :
    listPred (B ++ c :: A) c = B.getLast? := by
  induction B with
  | nil => simp [listPred]
  | cons b B ih =>
    have hb : b ≠ c := fun he => h (he ▸ List.mem_cons_self b B)
    have hB : c ∉ B := fun hm => h (List.mem_cons_of_mem _ hm)
    cases B with
    | nil =>
      show listPred (b :: c :: A) c = some b
      rw [listPred_cons_eq hb]
    | cons b2 B2 =>
      have hb2 : b2 ≠ c := fun he => hB (he ▸ List.mem_cons_self b2 B2)
      rw [List.cons_append, List.cons_append, listPred_cons_cons hb hb2,
        ← List.cons_append, ih hB, List.getLast?_cons_cons]

/-- Split a duplicate-free list at an element. -/
theorem nodup_split {l : List Key} {c : Key} (hnd : l.Nodup) (hc : c ∈ l) :
    ∃ B A, l = B ++ c :: A ∧ c ∉ B ∧ c ∉ A := by
  obtain ⟨B, A, rfl⟩ := List.append_of_mem hc
  have h2 := List.nodup_middle.mp hnd
  have h3 : c ∉ B ++ A := (List.nodup_cons.mp h2).1
  exact ⟨B, A, rfl, fun hm => h3 (List.mem_append_left _ hm),
    fun hm => h3 (List.mem_append_right _ hm)⟩

theorem listSucc_mem {l : List Key} {c n : Key} (hnd : l.Nodup) (hc : c ∈ l)
    (h : listSucc l c = some n) : n ∈ l ∧ n ≠ c := by
  obtain ⟨B, A, rfl, hcB, hcA⟩ := nodup_split hnd hc
  rw [listSucc_append_cons hcB] at h
  cases A with
  | nil => simp at h
  | cons a A2 =>
    cases h
    exact ⟨List.mem_append_right _ (List.mem_cons_of_mem _ (List.mem_cons_self _ _)),
      fun he => hcA (he ▸ List.mem_cons_self _ _)⟩

theorem listPred_of_listSucc {l : List Key} {c n : Key} (hnd : l.Nodup) (hc : c ∈ l)
    (h : listSucc l c = some n) : listPred l n = some c := by
  obtain ⟨B, A, hl, hcB, hcA⟩ := nodup_split hnd hc
  subst hl
  rw [listSucc_append_cons hcB] at h
  cases A with
  | nil => simp at h
  | cons a A2 =>
    cases h
    have hn : n ∉ B ++ [c] := by
      intro hm
      have hnl := hnd
      rw [show B ++ c :: n :: A2 = (B ++ [c]) ++ n :: A2 by simp] at hnl
      exact (List.nodup_cons.mp (List.nodup_middle.mp hnl)).1 (List.mem_append_left _ hm)
    have : (B ++ [c]) ++ n :: A2 = B ++ c :: n :: A2 := by simp
    rw [← this, listPred_append_cons hn, List.getLast?_concat]

theorem listSucc_of_listPred {l : List Key} {c p : Key} (hnd : l.Nodup) (hc : c ∈ l)
    (h : listPred l c = some p) : listSucc l p = some c := by
  obtain ⟨B, A, hl, hcB, hcA⟩ := nodup_split hnd hc
  subst hl
  rw [listPred_append_cons hcB] at h
  obtain ⟨B2, rfl⟩ := List.getLast?_eq_some_iff.mp h
  have hp : p ∉ B2 := by
    intro hm
    have := List.nodup_middle.mp ((List.nodup_append.mp hnd).1)
    exact (List.nodup_cons.mp (by simpa using this)).1 (by simpa using hm)
  have : (B2 ++ [p]) ++ c :: A = B2 ++ p :: (c :: A) := by simp
  rw [this, listSucc_append_cons hp]
  rfl

theorem listSucc_none_iff {l : List Key} {c : Key} (hnd : l.Nodup) (hc : c ∈ l) :
    listSucc l c = none ↔ l.getLast? = some c := by
  obtain ⟨B, A, rfl, hcB, hcA⟩ := nodup_split hnd hc
  rw [listSucc_append_cons hcB]
  cases A with
  | nil => simp [List.getLast?_concat]
  | cons a A2 =>
    simp only [List.head?_cons, List.getLast?_append]
    constructor
    · intro h; exact absurd h (by simp)
    · intro h
      have hg : (a :: A2).getLast? = some c := by
        cases hx : (a :: A2).getLast? with
        | none => exact absurd hx (by simp)
        | some x => rw [List.getLast?_cons_cons, hx] at h; simpa using h
      exact absurd (List.mem_of_getLast?_eq_some hg) hcA

theorem listPred_none_iff {l : List Key} {c : Key} (hnd : l.Nodup) (hc : c ∈ l) :
    listPred l c = none ↔ l.head? = some c := by
  obtain ⟨B, A, rfl, hcB, hcA⟩ := nodup_split hnd hc
  rw [listPred_append_cons hcB]
  cases B with
  | nil => simp
  | cons b B2 =>
    constructor
    · intro h; exact absurd h (by simp)
    · intro h
      simp only [List.cons_append, List.head?_cons] at h
      cases h
      exact absurd (List.mem_cons_self _ _) hcB

theorem listPred_mem {l : List Key} {c p : Key} (hnd : l.Nodup) (hc : c ∈ l)
    (h : listPred l c = some p) : p ∈ l ∧ p ≠ c := by
  obtain ⟨B, A, rfl, hcB, hcA⟩ := nodup_split hnd hc
  rw [listPred_append_cons hcB] at h
  have hpB := List.mem_of_getLast?_eq_some h
  exact ⟨List.mem_append_left _ hpB, fun he => hcB (he ▸ hpB)⟩

/-! ### Shape lemmas -/

theorem vo_head : ∀ kt : KTree, ∃ tl, kt.vo = kt.key :: tl
  | .term _ => ⟨[], rfl⟩
  | .arr _ _ _ => ⟨_, rfl⟩
  | .obj _ _ _ => ⟨_, rfl⟩

theorem keys_head : ∀ kt : KTree, ∃ tl, kt.keys = kt.key :: tl
  | .term _ => ⟨[], rfl⟩
  | .arr _ _ _ => ⟨_, rfl⟩
  | .obj _ _ _ => ⟨_, rfl⟩

theorem vo_ne_nil (kt : KTree) : kt.vo ≠ [] := by
  obtain ⟨tl, h⟩ := vo_head kt; simp [h]

theorem vo_head_eq (kt : KTree) : kt.vo.head? = some kt.key := by
  obtain ⟨tl, h⟩ := vo_head kt; simp [h]

theorem key_mem_vo (kt : KTree) : kt.key ∈ kt.vo := by
  obtain ⟨tl, h⟩ := vo_head kt; simp [h]

theorem voList_append : ∀ a b : List KTree, voList (a ++ b) = voList a ++ voList b := by
  intro a b
  induction a with
  | nil => rfl
  | cons c cs ih => simp only [List.cons_append, voList, List.append_eq, ih, List.append_assoc]

theorem keysList_append : ∀ a b : List KTree, keysList (a ++ b) = keysList a ++ keysList b := by
  intro a b
  induction a with
  | nil => rfl
  | cons c cs ih =>
    simp only [List.cons_append, keysList, List.append_eq, ih, List.append_assoc]

theorem mem_keysList {x : Key} : ∀ {cs : List KTree}, x ∈ keysList cs → ∃ c ∈ cs, x ∈ c.keys := by
  intro cs h
  induction cs with
  | nil => simp [keysList] at h
  | cons c cs ih =>
    rcases List.mem_append.mp h with h | h
    · exact ⟨c, List.mem_cons_self _ _, h⟩
    · obtain ⟨c2, hc2, hx⟩ := ih h
      exact ⟨c2, List.mem_cons_of_mem _ hc2, hx⟩

theorem mem_keysList_of_mem {x : Key} {c : KTree} : ∀ {cs : List KTree}, c ∈ cs → x ∈ c.keys →
    x ∈ keysList cs := by
  intro cs hc hx
  induction cs with
  | nil => simp at hc
  | cons c2 cs ih =>
    rcases List.mem_cons.mp hc with rfl | hc
    · exact List.mem_append_left _ hx
    · exact List.mem_append_right _ (ih hc)

mutual

theorem vo_sublist_keys : ∀ kt : KTree, kt.vo.Sublist kt.keys
  | .term _ => List.Sublist.refl _
  | .arr k vis cs => by
    cases vis with
    | true => exact (voList_sublist_keysList cs).cons₂ k
    | false => exact (List.nil_sublist (keysList cs)).cons₂ k
  | .obj k vis cs => by
    cases vis with
    | true => exact (voList_sublist_keysList cs).cons₂ k
    | false => exact (List.nil_sublist (keysList cs)).cons₂ k

theorem voList_sublist_keysList : ∀ cs : List KTree, (voList cs).Sublist (keysList cs)
  | [] => List.Sublist.refl _
  | c :: cs => List.Sublist.append (vo_sublist_keys c) (voList_sublist_keysList cs)

end

theorem mapKey_sublist : ∀ cs : List KTree, (cs.map KTree.key).Sublist (keysList cs)
  | [] => List.Sublist.refl _
  | c :: cs => by
    obtain ⟨tl, h⟩ := keys_head c
    show (c.key :: cs.map KTree.key).Sublist (c.keys ++ keysList cs)
    rw [h]
    exact ((mapKey_sublist cs).trans (List.sublist_append_right tl _)).cons₂ _

theorem key_mem_keys (kt : KTree) : kt.key ∈ kt.keys := by
  obtain ⟨tl, h⟩ := keys_head kt; simp [h]

theorem vo_subset_keys {kt : KTree} {x : Key} (h : x ∈ kt.vo) : x ∈ kt.keys :=
  (vo_sublist_keys kt).subset h

theorem noEmptyList_mem {c : KTree} : ∀ {cs : List KTree}, c ∈ cs → noEmptyList cs = true →
    c.noEmptyB = true := by
  intro cs hc h
  induction cs with
  | nil => simp at hc
  | cons c2 cs ih =>
    rw [show noEmptyList (c2 :: cs) = (c2.noEmptyB && noEmptyList cs) from rfl,
      Bool.and_eq_true] at h
    rcases List.mem_cons.mp hc with rfl | hc
    · exact h.1
    · exact ih hc h.2

theorem getLast?_cons_ne {k : Key} {X : List Key} (h : X ≠ []) :
    (k :: X).getLast? = X.getLast? := by
  cases X with
  | nil => exact absurd rfl h
  | cons a Y => exact List.getLast?_cons_cons

theorem voList_getLast_concat (cs : List KTree) (c : KTree) :
    (voList (cs ++ [c])).getLast? = c.vo.getLast? := by
  rw [voList_append]
  show (voList cs ++ (c.vo ++ voList [])).getLast? = _
  rw [show voList ([] : List KTree) = [] from rfl, List.append_nil, List.getLast?_append]
  cases hg : c.vo.getLast? with
  | none =>
    have h1 : c.vo.getLast?.isSome := List.getLast?_isSome.mpr (vo_ne_nil c)
    rw [hg] at h1
    simp at h1
  | some x => rfl

/-! ### Context (zipper) lemmas -/

theorem Frame.subtree_key (f : Frame) (st : KTree) : (f.subtree st).key = f.pk := by
  unfold Frame.subtree
  by_cases h : f.isObj <;> simp [h, KTree.key]

theorem Frame.subtree_vo (f : Frame) (st : KTree) (hv : f.pvis = true) :
    (f.subtree st).vo = f.pk :: (voList f.before ++ st.vo ++ voList f.after) := by
  unfold Frame.subtree
  by_cases h : f.isObj <;>
    simp [h, KTree.vo, hv, voList_append, voList, List.append_assoc]

theorem Frame.subtree_keys (f : Frame) (st : KTree) :
    (f.subtree st).keys = f.pk :: keysList (f.before ++ st :: f.after) := by
  unfold Frame.subtree
  by_cases h : f.isObj <;> simp [h, KTree.keys]

theorem plug_append : ∀ (fs gs : List Frame) (st : KTree),
    plug st (fs ++ gs) = plug (plug st fs) gs
  | [], _, _ => rfl
  | f :: fs, gs, st => plug_append fs gs (f.subtree st)

theorem ctxAfter_head : ∀ fs : List Frame, (ctxAfter fs).head? = ctxNextSib fs
  | [] => rfl
  | f :: fs => by
    obtain ⟨pk, pvis, iso, bef, aft⟩ := f
    cases aft with
    | nil =>
      show (voList [] ++ ctxAfter fs).head? = ctxNextSib fs
      rw [show voList ([] : List KTree) = [] from rfl, List.nil_append]
      exact ctxAfter_head fs
    | cons a rest =>
      show (voList (a :: rest) ++ ctxAfter fs).head? = some a.key
      rw [show voList (a :: rest) = a.vo ++ voList rest from rfl]
      obtain ⟨tl, hvo⟩ := vo_head a
      simp [hvo]

theorem vo_plug : ∀ (fs : List Frame) (st : KTree), (∀ f ∈ fs, f.pvis = true) →
    (plug st fs).vo = ctxBefore fs ++ st.vo ++ ctxAfter fs
  | [], st, _ => by simp [plug, ctxBefore, ctxAfter]
  | f :: fs, st, h => by
    have hf : f.pvis = true := h f (List.mem_cons_self _ _)
    have hrest : ∀ g ∈ fs, g.pvis = true := fun g hg => h g (List.mem_cons_of_mem _ hg)
    show (plug (f.subtree st) fs).vo = _
    rw [vo_plug fs (f.subtree st) hrest, Frame.subtree_vo f st hf]
    show _ = (ctxBefore fs ++ f.pk :: voList f.before) ++ st.vo ++ (voList f.after ++ ctxAfter fs)
    simp [List.append_assoc]

theorem plug_keys : ∀ (fs : List Frame) (st : KTree),
    (plug st fs).keys.Nodup →
    (fs.map Frame.pk ++ st.keys).Nodup ∧
      ∀ x ∈ fs.map Frame.pk ++ st.keys, x ∈ (plug st fs).keys
  | [], st, h => ⟨by simpa using h, by intro x hx; simpa using hx⟩
  | f :: fs, st, h => by
    obtain ⟨ih1, ih2⟩ := plug_keys fs (f.subtree st) h
    rw [Frame.subtree_keys] at ih1 ih2
    have hsub : st.keys.Sublist (keysList (f.before ++ st :: f.after)) := by
      rw [keysList_append]
      show st.keys.Sublist (keysList f.before ++ (st.keys ++ keysList (f.after)))
      exact (List.sublist_append_left _ _).trans (List.sublist_append_right _ _)
    have hperm : (List.map Frame.pk fs ++ f.pk :: st.keys).Perm
        ((f :: fs).map Frame.pk ++ st.keys) := by
      show (List.map Frame.pk fs ++ f.pk :: st.keys).Perm
        (f.pk :: (List.map Frame.pk fs ++ st.keys))
      exact List.perm_middle
    have hsl : (List.map Frame.pk fs ++ f.pk :: st.keys).Sublist
        (List.map Frame.pk fs ++ f.pk :: keysList (f.before ++ st :: f.after)) :=
      (hsub.cons₂ f.pk).append_left _
    constructor
    · exact hperm.nodup (ih1.sublist hsl)
    · intro x hx
      have hx2 : x ∈ List.map Frame.pk fs ++ f.pk :: st.keys := (hperm.mem_iff).mpr hx
      exact ih2 x (hsl.subset hx2)

theorem rep_get {t : Tree} {par : Option Key} {st : KTree} (h : Rep t par st) :
    ∃ n, t.slotMap[st.key]? = some n ∧ n.parent = par := by
  cases h with
  | term h => exact ⟨_, h, rfl⟩
  | arr h hcs => exact ⟨_, h, rfl⟩
  | obj h hes hcs => exact ⟨_, h, rfl⟩

theorem rep_congr {t t2 : Tree} (hmap : t.slotMap = t2.slotMap) {par : Option Key} :
    ∀ {kt : KTree}, Rep t par kt → Rep t2 par kt := by
  intro kt h
  induction h with
  | term h => exact Rep.term (hmap ▸ h)
  | arr h hcs ih => exact Rep.arr (hmap ▸ h) fun c hc => ih c hc
  | obj h hes hcs ih => exact Rep.obj (hmap ▸ h) hes fun c hc => ih c hc

theorem rep_setHighlight {t t2 : Tree} {j : Key} {b : Bool}
    (hset : setHighlight t j b = some t2) {par : Option Key} {kt : KTree}
    (h : Rep t par kt) : Rep t2 par kt := by
  obtain ⟨-, -, -, nj, hnj, hset2, hoth⟩ := setHighlight_eq_some hset
  induction h with
  | @term par k v hl h =>
    by_cases hk : k = j
    · subst hk
      rw [h] at hnj
      cases hnj
      exact Rep.term hset2
    · exact Rep.term ((hoth k hk) ▸ h)
  | @arr par k vis hl cs h hcs ih =>
    by_cases hk : k = j
    · subst hk
      rw [h] at hnj
      cases hnj
      exact Rep.arr hset2 fun c hc => ih c hc
    · exact Rep.arr ((hoth k hk) ▸ h) fun c hc => ih c hc
  | @obj par k vis hl es cs h hes hcs ih =>
    by_cases hk : k = j
    · subst hk
      rw [h] at hnj
      cases hnj
      exact Rep.obj hset2 hes fun c hc => ih c hc
    · exact Rep.obj ((hoth k hk) ▸ h) hes fun c hc => ih c hc

theorem rep_keys_valid {t : Tree} {par : Option Key} {kt : KTree} (h : Rep t par kt) :
    ∀ x ∈ kt.keys, ∃ n, t.slotMap[x]? = some n := by
  induction h with
  | @term par k v hl h =>
    intro x hx
    rw [show (KTree.term k).keys = [k] from rfl] at hx
    simp at hx
    subst hx
    exact ⟨_, h⟩
  | @arr par k vis hl cs h hcs ih =>
    intro x hx
    rw [show (KTree.arr k vis cs).keys = k :: keysList cs from rfl] at hx
    rcases List.mem_cons.mp hx with rfl | hx
    · exact ⟨_, h⟩
    · obtain ⟨c, hc, hxc⟩ := mem_keysList hx
      exact ih c hc x hxc
  | @obj par k vis hl es cs h hes hcs ih =>
    intro x hx
    rw [show (KTree.obj k vis cs).keys = k :: keysList cs from rfl] at hx
    rcases List.mem_cons.mp hx with rfl | hx
    · exact ⟨_, h⟩
    · obtain ⟨c, hc, hxc⟩ := mem_keysList hx
      exact ih c hc x hxc

theorem rep_plug {t : Tree} : ∀ (fs : List Frame) (st : KTree) (par0 : Option Key),
    Rep t par0 (plug st fs) → Rep t (ctxParent par0 fs) st
  | [], _, _, h => h
  | f :: fs, st, par0, h => by
    have hsub := rep_plug fs (f.subtree st) par0 h
    show Rep t (some f.pk) st
    unfold Frame.subtree at hsub
    by_cases ho : f.isObj
    · rw [if_pos ho] at hsub
      cases hsub with
      | obj hget hes hcs => exact hcs st (by simp)
    · rw [if_neg ho] at hsub
      cases hsub with
      | arr hget hcs => exact hcs st (by simp)

theorem noEmpty_plug : ∀ (fs : List Frame) (st : KTree),
    (plug st fs).noEmptyB = true → st.noEmptyB = true
  | [], _, h => h
  | f :: fs, st, h => by
    have hsub := noEmpty_plug fs (f.subtree st) h
    unfold Frame.subtree at hsub
    by_cases ho : f.isObj
    · rw [if_pos ho] at hsub
      rw [show (KTree.obj f.pk f.pvis (f.before ++ st :: f.after)).noEmptyB =
        (!(f.before ++ st :: f.after).isEmpty && noEmptyList (f.before ++ st :: f.after))
        from rfl, Bool.and_eq_true] at hsub
      exact noEmptyList_mem (by simp) hsub.2
    · rw [if_neg ho] at hsub
      rw [show (KTree.arr f.pk f.pvis (f.before ++ st :: f.after)).noEmptyB =
        (!(f.before ++ st :: f.after).isEmpty && noEmptyList (f.before ++ st :: f.after))
        from rfl, Bool.and_eq_true] at hsub
      exact noEmptyList_mem (by simp) hsub.2

theorem voList_decomp {c : Key} : ∀ (cs : List KTree), c ∈ voList cs →
    ∃ b st0 a, cs = b ++ st0 :: a ∧ c ∈ st0.vo := by
  intro cs h
  induction cs with
  | nil => simp [voList] at h
  | cons c0 cs ih =>
    rw [show voList (c0 :: cs) = c0.vo ++ voList cs from rfl] at h
    rcases List.mem_append.mp h with h | h
    · exact ⟨[], c0, cs, rfl, h⟩
    · obtain ⟨b, st0, a, he, hst⟩ := ih h
      exact ⟨c0 :: b, st0, a, by rw [he, List.cons_append], hst⟩

/-! ### Sibling search (`find_next_key` / `find_previous_key`) -/

theorem findIdx_beq_append_cons {c : Key} : ∀ (B : List Key) (A : List Key) (i : Nat),
    c ∉ B → List.findIdx? (fun k => k == c) (B ++ c :: A) i = some (B.length + i)
  | [], A, i, _ => by simp [List.findIdx?_cons]
  | b :: B, A, i, h => by
    have hb : (b == c) = false := by
      simp only [beq_eq_false_iff_ne, ne_eq]
      exact fun he => h (he ▸ List.mem_cons_self b B)
    rw [List.cons_append, List.findIdx?_cons, hb, if_neg (by simp),
      findIdx_beq_append_cons B A (i + 1) (fun hm => h (List.mem_cons_of_mem _ hm))]
    congr 1
    simp only [List.length_cons]
    omega

theorem findIdx_snd_eq {c : Key} : ∀ (es : List (String × Key)) (i : Nat),
    List.findIdx? (fun e => e.2 == c) es i =
      List.findIdx? (fun k => k == c) (es.map Prod.snd) i
  | [], _ => rfl
  | e :: es, i => by
    rw [List.map_cons, List.findIdx?_cons, List.findIdx?_cons, findIdx_snd_eq es (i + 1)]

theorem find_next_key_arr {B A : List Key} {c : Key} (h : c ∉ B) :
    NonTerminalNode.find_next_key (.array (B ++ c :: A)) c = A.head? := by
  rw [show NonTerminalNode.find_next_key (.array (B ++ c :: A)) c =
    (List.findIdx? (fun k => k == c) (B ++ c :: A) 0).bind
      (fun i => if i < (B ++ c :: A).length - 1 then (B ++ c :: A)[i + 1]? else none)
    from rfl]
  rw [findIdx_beq_append_cons B A 0 h, Option.some_bind, Nat.add_zero]
  cases A with
  | nil =>
    rw [if_neg (by simp only [List.length_append, List.length_cons, List.length_nil]; omega)]
    rfl
  | cons a A2 =>
    rw [if_pos (by simp only [List.length_append, List.length_cons]; omega),
      List.getElem?_append_right (by omega)]
    simp

theorem find_next_key_obj {es : List (String × Key)} {B A : List Key} {c : Key}
    (hes : es.map Prod.snd = B ++ c :: A) (h : c ∉ B) :
    NonTerminalNode.find_next_key (.object es) c = A.head? := by
  rw [show NonTerminalNode.find_next_key (.object es) c =
    (List.findIdx? (fun e => e.2 == c) es 0).bind
      (fun i => if i < es.length - 1 then (es[i + 1]?).map Prod.snd else none)
    from rfl]
  rw [findIdx_snd_eq es 0, hes, findIdx_beq_append_cons B A 0 h, Option.some_bind,
    Nat.add_zero]
  have hlen : es.length = B.length + 1 + A.length := by
    have h1 : (es.map Prod.snd).length = es.length := List.length_map es Prod.snd
    rw [hes] at h1
    simp only [List.length_append, List.length_cons] at h1
    omega
  cases A with
  | nil =>
    rw [if_neg (by simp only [List.length_nil] at hlen; omega)]
    rfl
  | cons a A2 =>
    rw [if_pos (by simp only [List.length_cons] at hlen; omega)]
    have hmap : (es[B.length + 1]?).map Prod.snd = (es.map Prod.snd)[B.length + 1]? :=
      (List.getElem?_map Prod.snd es (B.length + 1)).symm
    rw [hmap, hes, List.getElem?_append_right (by omega)]
    simp

theorem find_previous_key_arr {B A : List Key} {c : Key} (h : c ∉ B) :
    NonTerminalNode.find_previous_key (.array (B ++ c :: A)) c = B.getLast? := by
  rw [show NonTerminalNode.find_previous_key (.array (B ++ c :: A)) c =
    (List.findIdx? (fun k => k == c) (B ++ c :: A) 0).bind
      (fun i => if 0 < i then (B ++ c :: A)[i - 1]? else none)
    from rfl]
  rw [findIdx_beq_append_cons B A 0 h, Option.some_bind, Nat.add_zero]
  cases B with
  | nil =>
    rw [if_neg (by simp)]
    rfl
  | cons b B2 =>
    rw [if_pos (by simp), List.getElem?_append_left (by simp), List.getLast?_eq_getElem?]

theorem find_previous_key_obj {es : List (String × Key)} {B A : List Key} {c : Key}
    (hes : es.map Prod.snd = B ++ c :: A) (h : c ∉ B) :
    NonTerminalNode.find_previous_key (.object es) c = B.getLast? := by
  rw [show NonTerminalNode.find_previous_key (.object es) c =
    (List.findIdx? (fun e => e.2 == c) es 0).bind
      (fun i => if 0 < i then (es[i - 1]?).map Prod.snd else none)
    from rfl]
  rw [findIdx_snd_eq es 0, hes, findIdx_beq_append_cons B A 0 h, Option.some_bind,
    Nat.add_zero]
  cases B with
  | nil =>
    rw [if_neg (by simp)]
    rfl
  | cons b B2 =>
    rw [if_pos (by simp)]
    have hmap : (es[(b :: B2).length - 1]?).map Prod.snd =
        (es.map Prod.snd)[(b :: B2).length - 1]? :=
      (List.getElem?_map Prod.snd es ((b :: B2).length - 1)).symm
    rw [hmap, hes, List.getElem?_append_left (by simp), List.getLast?_eq_getElem?]

/-- Any key of the visible order sits at the focus of a context whose frames
are all visible. -/
theorem vo_decomp : ∀ (kt : KTree) (c : Key), c ∈ kt.vo →
    ∃ fs st, plug st fs = kt ∧ st.key = c ∧ ∀ f ∈ fs, f.pvis = true
  | .term k, c, h => by
    rw [show (KTree.term k).vo = [k] from rfl] at h
    have h2 : c = k := by simpa using h
    exact ⟨[], .term k, rfl, h2.symm, by simp⟩
  | .arr k vis cs, c, h => by
    rw [show (KTree.arr k vis cs).vo = k :: (if vis then voList cs else []) from rfl] at h
    rcases List.mem_cons.mp h with rfl | h2
    · exact ⟨[], .arr c vis cs, rfl, rfl, by simp⟩
    · cases vis with
      | false => simp at h2
      | true =>
        rw [if_pos rfl] at h2
        obtain ⟨b, st0, a, hcs, hst⟩ := voList_decomp cs h2
        have hmem : st0 ∈ cs := by rw [hcs]; simp
        obtain ⟨fs0, st, hplug, hkey, hfr⟩ := vo_decomp st0 c hst
        refine ⟨fs0 ++ [⟨k, true, false, b, a⟩], st, ?_, hkey, ?_⟩
        · rw [plug_append, hplug]
          show Frame.subtree ⟨k, true, false, b, a⟩ st0 = KTree.arr k true cs
          rw [show Frame.subtree ⟨k, true, false, b, a⟩ st0 =
            KTree.arr k true (b ++ st0 :: a) from rfl, hcs]
        · intro f hf
          rcases List.mem_append.mp hf with hf | hf
          · exact hfr f hf
          · simp at hf
            rw [hf]
  | .obj k vis cs, c, h => by
    rw [show (KTree.obj k vis cs).vo = k :: (if vis then voList cs else []) from rfl] at h
    rcases List.mem_cons.mp h with rfl | h2
    · exact ⟨[], .obj c vis cs, rfl, rfl, by simp⟩
    · cases vis with
      | false => simp at h2
      | true =>
        rw [if_pos rfl] at h2
        obtain ⟨b, st0, a, hcs, hst⟩ := voList_decomp cs h2
        have hmem : st0 ∈ cs := by rw [hcs]; simp
        obtain ⟨fs0, st, hplug, hkey, hfr⟩ := vo_decomp st0 c hst
        refine ⟨fs0 ++ [⟨k, true, true, b, a⟩], st, ?_, hkey, ?_⟩
        · rw [plug_append, hplug]
          show Frame.subtree ⟨k, true, true, b, a⟩ st0 = KTree.obj k true cs
          rw [show Frame.subtree ⟨k, true, true, b, a⟩ st0 =
            KTree.obj k true (b ++ st0 :: a) from rfl, hcs]
        · intro f hf
          rcases List.mem_append.mp hf with hf | hf
          · exact hfr f hf
          · simp at hf
            rw [hf]
termination_by kt _ _ => sizeOf kt
decreasing_by
  all_goals
    simp only [KTree.arr.sizeOf_spec, KTree.obj.sizeOf_spec]
    have := List.sizeOf_lt_of_mem hmem
    omega

/-! ### The walk-upward loop -/
theorem nodup_lt_length {l : List Nat} {n : Nat} (hnd : l.Nodup) (hb : ∀ x ∈ l, x < n) :
    l.length ≤ n := by
  have hsub : l ⊆ List.range n := fun x hx => List.mem_range.mpr (hb x hx)
  have := (hnd.subperm hsub).length_le
  simpa using this

/-- The walk-upward loop finds exactly the first following sibling of the
ancestor chain (the spec's step-1 rule), regardless of the focus node's kind. -/
theorem walkUp_spec {t : Tree} {kt : KTree} (hrep : Rep t none kt) (hnd : kt.keys.Nodup) :
    ∀ (fs : List Frame) (st : KTree) (fuel : Nat), plug st fs = kt → fs.length < fuel →
    walkUpLoop t fuel st.key = some (ctxNextSib fs) := by
  intro fs
  induction fs with
  | nil =>
    intro st fuel hplug hfuel
    have hst : st = kt := hplug
    subst hst
    cases fuel with
    | zero => omega
    | succ fuel =>
      obtain ⟨n, hget, hpar⟩ := rep_get hrep
      unfold walkUpLoop
      rw [show keyToNode? t st.key = some n from hget]
      simp only [bind, Option.some_bind, hpar]
      rfl
  | cons f fs ih =>
    intro st fuel hplug hfuel
    obtain ⟨pk, pvis, iso, bef, aft⟩ := f
    cases fuel with
    | zero => simp at hfuel
    | succ fuel =>
      have hplug2 : plug (Frame.subtree ⟨pk, pvis, iso, bef, aft⟩ st) fs = kt := hplug
      have hsubrep : Rep t (ctxParent none fs) (Frame.subtree ⟨pk, pvis, iso, bef, aft⟩ st) :=
        rep_plug fs _ none (by rw [hplug2]; exact hrep)
      have hstrep : Rep t (some pk) st :=
        rep_plug (⟨pk, pvis, iso, bef, aft⟩ :: fs) st none (by rw [hplug]; exact hrep)
      obtain ⟨n, hget, hpar⟩ := rep_get hstrep
      obtain ⟨hnodupS, -⟩ := plug_keys fs (Frame.subtree ⟨pk, pvis, iso, bef, aft⟩ st)
        (by rw [hplug2]; exact hnd)
      have hkeysub := hnodupS.of_append_right
      rw [Frame.subtree_keys] at hkeysub
      have hchild : ((bef ++ st :: aft).map KTree.key).Nodup :=
        (hkeysub.of_cons).sublist (mapKey_sublist _)
      have hmapsplit : (bef ++ st :: aft).map KTree.key =
          bef.map KTree.key ++ st.key :: aft.map KTree.key := by simp
      have hnotin : st.key ∉ bef.map KTree.key := by
        rw [hmapsplit] at hchild
        intro hm
        exact (List.nodup_cons.mp (List.nodup_middle.mp hchild)).1 (List.mem_append_left _ hm)
      -- the parent's arena node and its sibling search
      have hstep : ∃ pn, t.slotMap[pk]? = some pn ∧
          ∃ hv : HidableValue, pn.node = .nonTerminal hv ∧
            hv.node.find_next_key st.key = (aft.map KTree.key).head? := by
        by_cases ho : iso
        · rw [show Frame.subtree ⟨pk, pvis, iso, bef, aft⟩ st =
            KTree.obj pk pvis (bef ++ st :: aft) by simp [Frame.subtree, ho]] at hsubrep
          cases hsubrep with
          | obj hgetp hes hcs =>
            refine ⟨_, hgetp, _, rfl, ?_⟩
            exact find_next_key_obj (by rw [hes, hmapsplit]) hnotin
        · rw [show Frame.subtree ⟨pk, pvis, iso, bef, aft⟩ st =
            KTree.arr pk pvis (bef ++ st :: aft) by simp [Frame.subtree, ho]] at hsubrep
          cases hsubrep with
          | arr hgetp hcs =>
            refine ⟨_, hgetp, _, rfl, ?_⟩
            rw [show (bef ++ st :: aft).map KTree.key =
              bef.map KTree.key ++ st.key :: aft.map KTree.key from hmapsplit]
            exact find_next_key_arr hnotin
      obtain ⟨pn, hgetp, hv, hpn, hfind⟩ := hstep
      unfold walkUpLoop
      rw [show keyToNode? t st.key = some n from hget]
      simp only [bind, Option.some_bind, hpar, hgetp, hpn, hfind]
      cases aft with
      | cons a rest =>
        simp only [List.map_cons, List.head?_cons, Option.some_bind]
        rfl
      | nil =>
        simp only [List.map_nil, List.head?_nil, Option.some_bind]
        have hih := ih (Frame.subtree ⟨pk, pvis, iso, bef, []⟩ st) fuel hplug2
          (by simp at hfuel; omega)
        rw [Frame.subtree_key] at hih
        exact hih

/-! ### The descending loop -/

theorem noEmptyB_comp_parts {k : Key} {vis : Bool} {cs : List KTree}
    (ha : (KTree.arr k vis cs).noEmptyB = true ∨ (KTree.obj k vis cs).noEmptyB = true) :
    cs ≠ [] ∧ noEmptyList cs = true := by
  have h : (!cs.isEmpty && noEmptyList cs) = true := by
    rcases ha with h | h
    · exact h
    · exact h
  rw [Bool.and_eq_true] at h
  refine ⟨?_, h.2⟩
  intro he
  rw [he] at h
  simp at h

theorem voList_concat_ne_nil (cs : List KTree) (c : KTree) : voList (cs ++ [c]) ≠ [] := by
  rw [voList_append]
  intro he
  rcases List.append_eq_nil.mp he with ⟨-, h2⟩
  rw [show voList [c] = c.vo ++ voList [] from rfl] at h2
  rcases List.append_eq_nil.mp h2 with ⟨h3, -⟩
  exact vo_ne_nil c h3

theorem keysList_concat_bound (cs : List KTree) (c : KTree) :
    c.keys.length ≤ (keysList (cs ++ [c])).length := by
  rw [keysList_append, List.length_append]
  have h : keysList [c] = c.keys ++ [] := rfl
  rw [h, List.append_nil]
  omega

/-- The descending loop of `next_node_up` lands on the deepest last visible
node of the candidate subtree, which is the last entry of that subtree's
visible order. -/
theorem descend_spec {t : Tree} {cp : Option Key} :
    ∀ (fuel : Nat) (p : KTree) (par : Option Key),
    Rep t par p → p.noEmptyB = true → p.keys.length ≤ fuel →
    ∃ lk, descendLoop t cp fuel (some p.key) = some (some lk) ∧ p.vo.getLast? = some lk := by
  intro fuel
  induction fuel with
  | zero =>
    intro p par hrep hne hfl
    obtain ⟨tl, hk⟩ := keys_head p
    rw [hk] at hfl
    simp at hfl
  | succ fuel ih =>
    intro p par hrep hne hfl
    cases hrep with
    | @term par k v hl hget =>
      refine ⟨k, ?_, rfl⟩
      unfold descendLoop
      simp only [KTree.key]
      rw [show keyToNode? t k = some ⟨par, hl, .terminal v⟩ from hget]
      simp only [bind, Option.some_bind]
    | @arr par k vis hl cs hget hcs =>
      obtain ⟨hcsne, hnel⟩ := noEmptyB_comp_parts (Or.inl hne)
      cases vis with
      | false =>
        refine ⟨k, ?_, rfl⟩
        unfold descendLoop
        simp only [KTree.key]
        rw [show keyToNode? t k = some ⟨par, hl,
          .nonTerminal ⟨false, .array (cs.map KTree.key)⟩⟩ from hget]
        simp only [bind, Option.some_bind]
        rfl
      | true =>
        obtain ⟨cs2, clast, hcat⟩ := (List.eq_nil_or_concat cs).resolve_left hcsne
        rw [List.concat_eq_append] at hcat
        have hmem : clast ∈ cs := by rw [hcat]; simp
        have hlastkey : (cs.map KTree.key).getLast? = some clast.key := by
          rw [hcat, List.map_append, List.map_cons, List.map_nil, List.getLast?_concat]
        have hbound : clast.keys.length ≤ fuel := by
          have h1 : (KTree.arr k true cs).keys = k :: keysList cs := rfl
          rw [h1, List.length_cons] at hfl
          have h2 := keysList_concat_bound cs2 clast
          rw [← hcat] at h2
          omega
        obtain ⟨lk, hloop, hlast⟩ := ih clast (some k) (hcs clast hmem)
          (noEmptyList_mem hmem hnel) hbound
        refine ⟨lk, ?_, ?_⟩
        · unfold descendLoop
          simp only [KTree.key]
          rw [show keyToNode? t k = some ⟨par, hl,
            .nonTerminal ⟨true, .array (cs.map KTree.key)⟩⟩ from hget]
          simp only [bind, Option.some_bind]
          rw [show NonTerminalNode.find_last (.array (cs.map KTree.key)) =
            some ((cs.map KTree.key).getLast?) from rfl, hlastkey,
            if_neg (by simp :
              ¬(⟨true, NonTerminalNode.array (cs.map KTree.key)⟩ : HidableValue).visible = false)]
          simp only [bind, Option.some_bind]
          exact hloop
        · rw [show (KTree.arr k true cs).vo = k :: voList cs from rfl,
            getLast?_cons_ne (by rw [hcat]; exact voList_concat_ne_nil cs2 clast),
            hcat, voList_getLast_concat]
          exact hlast
    | @obj par k vis hl es cs hget hes hcs =>
      obtain ⟨hcsne, hnel⟩ := noEmptyB_comp_parts (Or.inr hne)
      cases vis with
      | false =>
        refine ⟨k, ?_, rfl⟩
        unfold descendLoop
        simp only [KTree.key]
        rw [show keyToNode? t k = some ⟨par, hl,
          .nonTerminal ⟨false, .object es⟩⟩ from hget]
        simp only [bind, Option.some_bind]
        rfl
      | true =>
        obtain ⟨cs2, clast, hcat⟩ := (List.eq_nil_or_concat cs).resolve_left hcsne
        rw [List.concat_eq_append] at hcat
        have hmem : clast ∈ cs := by rw [hcat]; simp
        have hesne : es ≠ [] := by
          intro he
          rw [he, hcat] at hes
          simp at hes
        obtain ⟨es2, e, hecat⟩ := (List.eq_nil_or_concat es).resolve_left hesne
        rw [List.concat_eq_append] at hecat
        have hlastkey : (cs.map KTree.key).getLast? = some clast.key := by
          rw [hcat, List.map_append, List.map_cons, List.map_nil, List.getLast?_concat]
        have hek : e.2 = clast.key := by
          have h1 : (es.map Prod.snd).getLast? = some e.2 := by
            rw [hecat, List.map_append, List.map_cons, List.map_nil, List.getLast?_concat]
          rw [hes, hlastkey] at h1
          exact (Option.some.injEq _ _).mp h1.symm
        have hbound : clast.keys.length ≤ fuel := by
          have h1 : (KTree.obj k true cs).keys = k :: keysList cs := rfl
          rw [h1, List.length_cons] at hfl
          have h2 := keysList_concat_bound cs2 clast
          rw [← hcat] at h2
          omega
        obtain ⟨lk, hloop, hlast⟩ := ih clast (some k) (hcs clast hmem)
          (noEmptyList_mem hmem hnel) hbound
        refine ⟨lk, ?_, ?_⟩
        · unfold descendLoop
          simp only [KTree.key]
          rw [show keyToNode? t k = some ⟨par, hl,
            .nonTerminal ⟨true, .object es⟩⟩ from hget]
          simp only [bind, Option.some_bind]
          rw [show NonTerminalNode.find_last (.object es) =
            (match es.getLast? with
            | none => none
            | some e => some (some e.2)) from rfl]
          rw [show es.getLast? = some e from by rw [hecat, List.getLast?_concat],
            if_neg (by simp :
              ¬(⟨true, NonTerminalNode.object es⟩ : HidableValue).visible = false)]
          simp only [bind, Option.some_bind]
          rw [hek]
          exact hloop
        · rw [show (KTree.obj k true cs).vo = k :: voList cs from rfl,
            getLast?_cons_ne (by rw [hcat]; exact voList_concat_ne_nil cs2 clast),
            hcat, voList_getLast_concat]
          exact hlast

/-! ### Unfolding the two moves -/

theorem nextNodeDown_eq {t t1 : Tree} {n1 : Node}
    (ht1 : setHighlight t t.currentNode false = some t1)
    (hget1 : t1.slotMap[t.currentNode]? = some n1)
    {X : Option (Option Key)}
    (hX : (match n1.node with
      | .terminal _ => walkUpLoop t1 (t1.slotMap.length + 1) t.currentNode
      | .nonTerminal hv =>
        if hv.visible = false then walkUpLoop t1 (t1.slotMap.length + 1) t.currentNode
        else match hv.node with
          | .array arr => some arr.head?
          | .object ob =>
            match ob.head? with
            | none => none
            | some e => some (some e.2)) = X) :
    nextNodeDown t = X.bind (fun r => moveTail t1 r) := by
  unfold nextNodeDown
  rw [ht1]
  simp only [bind, Option.some_bind]
  rw [show keyToNode? t1 t.currentNode = some n1 from hget1]
  simp only [Option.some_bind]
  rw [hX]
  rfl

theorem nextNodeUp_eq_root {t t1 : Tree} {n1 : Node}
    (ht1 : setHighlight t t.currentNode false = some t1)
    (hget1 : t1.slotMap[t.currentNode]? = some n1)
    (hpr : n1.parent = none) :
    nextNodeUp t = moveTail t1 none := by
  unfold nextNodeUp
  rw [ht1]
  simp only [bind, Option.some_bind]
  rw [show keyToNode? t1 t.currentNode = some n1 from hget1]
  simp only [Option.some_bind, hpr]
  rfl

theorem nextNodeUp_eq_sibling {t t1 : Tree} {n1 pn : Node} {pk : Key}
    {hv : HidableValue} {Q : Option Key}
    (ht1 : setHighlight t t.currentNode false = some t1)
    (hget1 : t1.slotMap[t.currentNode]? = some n1)
    (hpr : n1.parent = some pk)
    (hgetp : t1.slotMap[pk]? = some pn)
    (hpn : pn.node = .nonTerminal hv)
    (hviz : hv.visible = true)
    (hfind : hv.node.find_previous_key t.currentNode = Q) :
    nextNodeUp t = (descendLoop t1 (some pk) (t1.slotMap.length + 1) Q).bind
      (fun r => moveTail t1 r) := by
  unfold nextNodeUp
  rw [ht1]
  simp only [bind, Option.some_bind]
  rw [show keyToNode? t1 t.currentNode = some n1 from hget1]
  simp only [Option.some_bind, hpr, hgetp, hpn, hviz, hfind]
  rw [if_neg (show ¬((true : Bool) = false) by simp)]
  simp only [Option.some_bind]
  rfl

theorem moveTail_spec {t1 : Tree} {kt : KTree} (hrep1 : Rep t1 none kt) (r : Option Key)
    (hval : ∀ k, r = some k → k ∈ kt.keys)
    (hcv : ∃ n, t1.slotMap[t1.currentNode]? = some n) :
    ∃ t3, moveTail t1 r = some (t3, r) ∧ Rep t3 none kt ∧ t3.root = t1.root ∧
      t3.slotMap.length = t1.slotMap.length ∧ t3.currentNode = r.getD t1.currentNode := by
  cases r with
  | none =>
    obtain ⟨n, hn⟩ := hcv
    have hset := setHighlight_some_of_mem (b := true) hn
    refine ⟨{ t1 with
        slotMap := t1.slotMap.set t1.currentNode { n with highlighted := true } },
      ?_, rep_setHighlight hset hrep1, rfl, by simp, rfl⟩
    show (setHighlight t1 t1.currentNode true).bind (fun t3 => some (t3, none)) = _
    rw [hset]
    rfl
  | some k =>
    obtain ⟨n2, hn2⟩ := rep_keys_valid hrep1 k (hval k rfl)
    have hn2b : ({ t1 with currentNode := k } : Tree).slotMap[k]? = some n2 := hn2
    have hrep2 : Rep { t1 with currentNode := k } none kt :=
      rep_congr (show t1.slotMap = ({ t1 with currentNode := k } : Tree).slotMap from rfl) hrep1
    have hset := setHighlight_some_of_mem (b := true) hn2b
    refine ⟨{ t1 with
        slotMap := t1.slotMap.set k { n2 with highlighted := true },
        currentNode := k },
      ?_, rep_setHighlight hset hrep2, rfl, by simp, rfl⟩
    show (setHighlight { t1 with currentNode := k } k true).bind
      (fun t3 => some (t3, some k)) = _
    rw [hset]
    rfl

theorem ctx_bound {t : Tree} {kt : KTree} {fs : List Frame} {st : KTree}
    (hrep : Rep t none kt) (hnd : kt.keys.Nodup) (hplug : plug st fs = kt) :
    fs.length + st.keys.length ≤ t.slotMap.length := by
  obtain ⟨hnodupS, hsubset⟩ := plug_keys fs st (by rw [hplug]; exact hnd)
  have hb : ∀ x ∈ fs.map Frame.pk ++ st.keys, x < t.slotMap.length := by
    intro x hx
    obtain ⟨nx, hnx⟩ := rep_keys_valid hrep x (by rw [← hplug]; exact hsubset x hx)
    exact (List.getElem?_eq_some_iff.mp hnx).1
  have hlen := nodup_lt_length hnodupS hb
  simpa using hlen

/-! ### Characterizing the moves against the visible order -/

theorem move_finish {t t1 : Tree} {kt : KTree} {r sp : Option Key}
    {mv : Option (Tree × Option Key)}
    (hrep1 : Rep t1 none kt)
    (hroot1 : t1.root = t.root) (hcur1 : t1.currentNode = t.currentNode)
    (hlen1 : t1.slotMap.length = t.slotMap.length)
    (hcv : ∃ n, t1.slotMap[t1.currentNode]? = some n)
    (heq : mv = moveTail t1 r) (hsp : sp = r)
    (hval : ∀ k2, r = some k2 → k2 ∈ kt.keys) :
    ∃ t3, mv = some (t3, sp) ∧ Rep t3 none kt ∧ t3.root = t.root ∧
      t3.slotMap.length = t.slotMap.length ∧
      t3.currentNode = sp.getD t.currentNode := by
  obtain ⟨t3, hmt, hrep3, hroot3, hlen3, hcur3⟩ := moveTail_spec hrep1 r hval hcv
  refine ⟨t3, ?_, hrep3, by rw [hroot3, hroot1], by rw [hlen3, hlen1], ?_⟩
  · rw [heq, hmt, hsp]
  · rw [hsp, hcur3, hcur1]

/-- `next_node_down` computes exactly the successor of the current node in the
spec's visible order, and otherwise changes only highlights and the cursor. -/
theorem down_spec {t : Tree} {kt : KTree} (hrep : Rep t none kt) (hnd : kt.keys.Nodup)
    (hne : kt.noEmptyB = true) (hc : t.currentNode ∈ kt.vo) :
    ∃ t3, nextNodeDown t = some (t3, listSucc kt.vo t.currentNode) ∧
      Rep t3 none kt ∧ t3.root = t.root ∧ t3.slotMap.length = t.slotMap.length ∧
      t3.currentNode = (listSucc kt.vo t.currentNode).getD t.currentNode := by
  obtain ⟨fs, st, hplug, hkey, hfr⟩ := vo_decomp kt t.currentNode hc
  have hstrep : Rep t (ctxParent none fs) st :=
    rep_plug fs st none (by rw [hplug]; exact hrep)
  obtain ⟨n0, hgetc⟩ := rep_keys_valid hrep t.currentNode (vo_subset_keys hc)
  obtain ⟨t1, ht1⟩ : ∃ t1, setHighlight t t.currentNode false = some t1 :=
    ⟨_, setHighlight_some_of_mem (b := false) hgetc⟩
  obtain ⟨hroot1, hcur1, hlen1, nx, hnx, hnxset, hoth1⟩ := setHighlight_eq_some ht1
  have hrep1 := rep_setHighlight ht1 hrep
  have hstrep1 := rep_setHighlight ht1 hstrep
  have hvo : kt.vo = ctxBefore fs ++ st.vo ++ ctxAfter fs := by
    rw [← hplug]; exact vo_plug fs st hfr
  have hvond : kt.vo.Nodup := hnd.sublist (vo_sublist_keys kt)
  have hbound := ctx_bound hrep hnd hplug
  obtain ⟨kl, hkeyshape⟩ := keys_head st
  have hfsbound : fs.length < t1.slotMap.length + 1 := by
    have hlenkeys : 1 ≤ st.keys.length := by rw [hkeyshape]; simp
    rw [hlen1]
    omega
  have hcv : ∃ n2, t1.slotMap[t1.currentNode]? = some n2 :=
    ⟨_, by rw [hcur1]; exact hnxset⟩
  cases hstrep1 with
  | @term par2 k v hl hget1x =>
    have hkeyk : k = t.currentNode := hkey
    have hwalk := walkUp_spec hrep1 hnd fs (.term k) _ hplug hfsbound
    have hnode : ({ nx with highlighted := false } : Node).node = NodeType.terminal v := by
      rw [hkeyk] at hget1x
      rw [hnxset] at hget1x
      exact congrArg Node.node (Option.some.inj hget1x)
    have heq := nextNodeDown_eq ht1 hnxset
      (by rw [hnode])
    rw [show (KTree.term k).key = k from rfl, hkeyk] at hwalk
    rw [hwalk] at heq
    simp only [Option.some_bind] at heq
    have hnotb : t.currentNode ∉ ctxBefore fs := by
      rw [hvo, show (KTree.term k).vo = [k] from rfl, hkeyk] at hvond
      have h2 : ctxBefore fs ++ [t.currentNode] ++ ctxAfter fs =
          ctxBefore fs ++ t.currentNode :: ctxAfter fs := by simp
      rw [h2] at hvond
      exact (List.nodup_cons.mp (List.nodup_middle.mp hvond)).1 ∘ List.mem_append_left _
    have hsucc : listSucc kt.vo t.currentNode = ctxNextSib fs := by
      rw [hvo, show (KTree.term k).vo = [k] from rfl, hkeyk,
        show ctxBefore fs ++ [t.currentNode] ++ ctxAfter fs =
          ctxBefore fs ++ t.currentNode :: ctxAfter fs by simp,
        listSucc_append_cons hnotb, ctxAfter_head]
    exact move_finish hrep1 hroot1 hcur1 hlen1 hcv heq hsucc
      (fun k2 hr => vo_subset_keys
        (listSucc_mem hvond hc (by rw [hsucc, hr])).1)
  | @arr par2 k vis hl cs hget1x hcs =>
    have hkeyk : k = t.currentNode := hkey
    have hnode : ({ nx with highlighted := false } : Node).node = NodeType.nonTerminal ⟨vis, .array (cs.map KTree.key)⟩ := by
      rw [hkeyk] at hget1x
      rw [hnxset] at hget1x
      exact congrArg Node.node (Option.some.inj hget1x)
    cases vis with
    | false =>
      have hwalk := walkUp_spec hrep1 hnd fs (.arr k false cs) _ hplug hfsbound
      have heq := nextNodeDown_eq ht1 hnxset
        (by rw [hnode])
      rw [show (KTree.arr k false cs).key = k from rfl, hkeyk] at hwalk
      rw [hwalk] at heq
      simp only [Option.some_bind] at heq
      have hnotb : t.currentNode ∉ ctxBefore fs := by
        rw [hvo, show (KTree.arr k false cs).vo = [k] from rfl, hkeyk] at hvond
        have h2 : ctxBefore fs ++ [t.currentNode] ++ ctxAfter fs =
            ctxBefore fs ++ t.currentNode :: ctxAfter fs := by simp
        rw [h2] at hvond
        exact (List.nodup_cons.mp (List.nodup_middle.mp hvond)).1 ∘ List.mem_append_left _
      have hsucc : listSucc kt.vo t.currentNode = ctxNextSib fs := by
        rw [hvo, show (KTree.arr k false cs).vo = [k] from rfl, hkeyk,
          show ctxBefore fs ++ [t.currentNode] ++ ctxAfter fs =
            ctxBefore fs ++ t.currentNode :: ctxAfter fs by simp,
          listSucc_append_cons hnotb, ctxAfter_head]
      exact move_finish hrep1 hroot1 hcur1 hlen1 hcv heq hsucc
        (fun k2 hr => vo_subset_keys
          (listSucc_mem hvond hc (by rw [hsucc, hr])).1)
    | true =>
      have hnem := noEmpty_plug fs (.arr k true cs) (by rw [hplug]; exact hne)
      obtain ⟨hcsne, -⟩ := noEmptyB_comp_parts (Or.inl hnem)
      cases cs with
      | nil => exact absurd rfl hcsne
      | cons c0 cs2 =>
        have heq := nextNodeDown_eq ht1 hnxset
          (by rw [show ({ nx with highlighted := false } : Node).node =
            NodeType.nonTerminal ⟨true, .array ((c0 :: cs2).map KTree.key)⟩ from hnode])
        simp only [List.map_cons, List.head?_cons, Option.some_bind] at heq
        rw [if_neg (show ¬((true : Bool) = false) by simp)] at heq
        simp only [Option.some_bind] at heq
        have hnotb : t.currentNode ∉ ctxBefore fs := by
          rw [hvo] at hvond
          obtain ⟨tl, hvoeq⟩ := vo_head (KTree.arr k true (c0 :: cs2))
          rw [hvoeq, show (KTree.arr k true (c0 :: cs2)).key = k from rfl, hkeyk] at hvond
          have h2 : ctxBefore fs ++ (t.currentNode :: tl) ++ ctxAfter fs =
              ctxBefore fs ++ t.currentNode :: (tl ++ ctxAfter fs) := by simp
          rw [h2] at hvond
          exact (List.nodup_cons.mp (List.nodup_middle.mp hvond)).1 ∘ List.mem_append_left _
        have hsucc : listSucc kt.vo t.currentNode = some c0.key := by
          rw [hvo, show (KTree.arr k true (c0 :: cs2)).vo =
            k :: voList (c0 :: cs2) from rfl, hkeyk,
            show ctxBefore fs ++ (t.currentNode :: voList (c0 :: cs2)) ++ ctxAfter fs =
              ctxBefore fs ++ t.currentNode :: (voList (c0 :: cs2) ++ ctxAfter fs) by simp,
            listSucc_append_cons hnotb]
          rw [show voList (c0 :: cs2) = c0.vo ++ voList cs2 from rfl]
          obtain ⟨tl0, hc0⟩ := vo_head c0
          simp [hc0]
        exact move_finish hrep1 hroot1 hcur1 hlen1 hcv heq hsucc
          (fun k2 hr => vo_subset_keys
            (listSucc_mem hvond hc (by rw [hsucc, hr])).1)
  | @obj par2 k vis hl es cs hget1x hes hcs =>
    have hkeyk : k = t.currentNode := hkey
    have hnode : ({ nx with highlighted := false } : Node).node = NodeType.nonTerminal ⟨vis, .object es⟩ := by
      rw [hkeyk] at hget1x
      rw [hnxset] at hget1x
      exact congrArg Node.node (Option.some.inj hget1x)
    cases vis with
    | false =>
      have hwalk := walkUp_spec hrep1 hnd fs (.obj k false cs) _ hplug hfsbound
      have heq := nextNodeDown_eq ht1 hnxset
        (by rw [hnode])
      rw [show (KTree.obj k false cs).key = k from rfl, hkeyk] at hwalk
      rw [hwalk] at heq
      simp only [Option.some_bind] at heq
      have hnotb : t.currentNode ∉ ctxBefore fs := by
        rw [hvo, show (KTree.obj k false cs).vo = [k] from rfl, hkeyk] at hvond
        have h2 : ctxBefore fs ++ [t.currentNode] ++ ctxAfter fs =
            ctxBefore fs ++ t.currentNode :: ctxAfter fs := by simp
        rw [h2] at hvond
        exact (List.nodup_cons.mp (List.nodup_middle.mp hvond)).1 ∘ List.mem_append_left _
      have hsucc : listSucc kt.vo t.currentNode = ctxNextSib fs := by
        rw [hvo, show (KTree.obj k false cs).vo = [k] from rfl, hkeyk,
          show ctxBefore fs ++ [t.currentNode] ++ ctxAfter fs =
            ctxBefore fs ++ t.currentNode :: ctxAfter fs by simp,
          listSucc_append_cons hnotb, ctxAfter_head]
      exact move_finish hrep1 hroot1 hcur1 hlen1 hcv heq hsucc
        (fun k2 hr => vo_subset_keys
          (listSucc_mem hvond hc (by rw [hsucc, hr])).1)
    | true =>
      have hnem := noEmpty_plug fs (.obj k true cs) (by rw [hplug]; exact hne)
      obtain ⟨hcsne, -⟩ := noEmptyB_comp_parts (Or.inr hnem)
      cases cs with
      | nil => exact absurd rfl hcsne
      | cons c0 cs2 =>
        have hesne : es ≠ [] := by
          intro he
          rw [he] at hes
          simp at hes
        cases es with
        | nil => exact absurd rfl hesne
        | cons e es2 =>
          have he2 : e.2 = c0.key := by
            rw [List.map_cons, List.map_cons] at hes
            exact (List.cons.injEq _ _ _ _).mp hes |>.1
          have heq := nextNodeDown_eq ht1 hnxset
            (by rw [show ({ nx with highlighted := false } : Node).node =
              NodeType.nonTerminal ⟨true, .object (e :: es2)⟩ from hnode])
          simp only [List.head?_cons, Option.some_bind] at heq
          rw [if_neg (show ¬((true : Bool) = false) by simp)] at heq
          simp only [Option.some_bind] at heq
          rw [he2] at heq
          have hnotb : t.currentNode ∉ ctxBefore fs := by
            rw [hvo] at hvond
            obtain ⟨tl, hvoeq⟩ := vo_head (KTree.obj k true (c0 :: cs2))
            rw [hvoeq, show (KTree.obj k true (c0 :: cs2)).key = k from rfl, hkeyk] at hvond
            have h2 : ctxBefore fs ++ (t.currentNode :: tl) ++ ctxAfter fs =
                ctxBefore fs ++ t.currentNode :: (tl ++ ctxAfter fs) := by simp
            rw [h2] at hvond
            exact (List.nodup_cons.mp (List.nodup_middle.mp hvond)).1 ∘ List.mem_append_left _
          have hsucc : listSucc kt.vo t.currentNode = some c0.key := by
            rw [hvo, show (KTree.obj k true (c0 :: cs2)).vo =
              k :: voList (c0 :: cs2) from rfl, hkeyk,
              show ctxBefore fs ++ (t.currentNode :: voList (c0 :: cs2)) ++ ctxAfter fs =
                ctxBefore fs ++ t.currentNode :: (voList (c0 :: cs2) ++ ctxAfter fs) by simp,
              listSucc_append_cons hnotb]
            rw [show voList (c0 :: cs2) = c0.vo ++ voList cs2 from rfl]
            obtain ⟨tl0, hc0⟩ := vo_head c0
            simp [hc0]
          exact move_finish hrep1 hroot1 hcur1 hlen1 hcv heq hsucc
            (fun k2 hr => vo_subset_keys
              (listSucc_mem hvond hc (by rw [hsucc, hr])).1)

/-! ### Claim C8 — viewport thresholds -/

/-- C8 counterexample: at text height `H = 5`, scroll `S = 0`, the code's
lower threshold is `(5/3)*2 = 2`, not `2*5/3 = 3` as the claim states. -/
theorem computeClamps_claim_false :
    ¬ (computeClamps 5 0 = (5 / 3 + 0, 2 * 5 / 3 + 0)) := by
  decide

/-- C8 amended: the thresholds computed by the event loop are
`upper = H/3 + S` and `lower = (H/3)*2 + S` (the doubling happens after the
integer division by three). -/
theorem computeClamps_eq (totalHeight scrollY : Nat) :
    computeClamps totalHeight scrollY =
      (totalHeight / 3 + scrollY, totalHeight / 3 * 2 + scrollY) := rfl

/-! ### Claim C7 — null rendering -/

/-- C7: a terminal holding a null scalar renders as the single line `\x7b\x7b\x7d\x7d`
(the literal four characters of the Rust string `"{{}}"`, which `Text::raw`
does not `format!`-escape), not as the token `null` the claim requires. -/
theorem null_renders_as_braces :
    toText treeNull = some ["\x7b\x7b\x7d\x7d"] ∧
    renderScalar .null ≠ "null" := by
  constructor
  · decide
  · decide

/-! ### Claim C1 — locator vs. renderer -/

/-- C1: on `[[1,2],3]` with the inner array collapsed and the cursor on `3`,
the renderer emits four lines with the cursor's line at index 2 (the collapsed
composite occupies the single line `[...],`), while the line locator reports
index 5: `find_line_recursive` never reads the `visible` flag, so the
collapsed composite contributes its fully expanded line count and every node
after it in pre-order is located too deep. -/
theorem locator_diverges_from_renderer :
    findCurrentLine treeCollapsed = some 5 ∧
    toText treeCollapsed = some ["[", "  [...],", "  3", "]"] ∧
    (["[", "  [...],", "  3", "]"] : List String)[2]? = some "  3" := by
  refine ⟨rfl, by decide, rfl⟩

/-! ### Claim C3 — move_down on an empty visible composite -/

/-- C3: with the cursor on the empty visible array of `[[],5]`, `move_down`
returns `None` and leaves the cursor in place — it does not walk upward, even
though the spec's visible order continues with the sibling `5` (third
conjunct); and with the cursor on the empty visible object of `[{},5]`,
`move_down` panics on `obj.first().unwrap()` (modelled as `none`). -/
theorem down_fails_on_empty_composites :
    (nextNodeDown treeEmptyArrDown).map (fun r => (r.1.currentNode, r.2)) =
      some (1, none) ∧
    listSucc ktEmptyArr.vo treeEmptyArrDown.currentNode = some 2 ∧
    nextNodeDown treeEmptyObjDown = none := by
  refine ⟨rfl, rfl, rfl⟩

/-! ### Shape of a completed move

Both cursor moves follow the same state discipline: clear the highlight of the
current node, optionally move the cursor, set the highlight of the new current
node.  These two inversion lemmas extract that discipline from a completed
(`some`) call and are shared by the invariant proofs below. -/

theorem nextNodeDown_shape {t t2 : Tree} {r : Option Key} (h : nextNodeDown t = some (t2, r)) :
    ∃ t1, setHighlight t t.currentNode false = some t1 ∧
      ((r = none ∧ setHighlight t1 t1.currentNode true = some t2) ∨
       (∃ k, r = some k ∧ setHighlight { t1 with currentNode := k } k true = some t2)) := by
  unfold nextNodeDown at h
  simp only [bind, Option.bind_eq_some, pure, Option.some.injEq, Prod.mk.injEq] at h
  obtain ⟨t1, h1, cur, hcur, nk, hnk, t3, h3, he1, he2⟩ := h
  refine ⟨t1, h1, ?_⟩
  subst he2
  cases nk with
  | none => exact Or.inl ⟨rfl, by subst he1; exact h3⟩
  | some k => exact Or.inr ⟨k, rfl, by subst he1; exact h3⟩

theorem nextNodeUp_shape {t t2 : Tree} {r : Option Key} (h : nextNodeUp t = some (t2, r)) :
    ∃ t1, setHighlight t t.currentNode false = some t1 ∧
      ((r = none ∧ setHighlight t1 t1.currentNode true = some t2) ∨
       (∃ k, r = some k ∧ setHighlight { t1 with currentNode := k } k true = some t2)) := by
  unfold nextNodeUp at h
  simp only [bind, Option.bind_eq_some, pure, Option.some.injEq, Prod.mk.injEq] at h
  obtain ⟨t1, h1, cur, hcur, pk, hpk, nk, hnk, t3, h3, he1, he2⟩ := h
  refine ⟨t1, h1, ?_⟩
  subst he2
  cases nk with
  | none => exact Or.inl ⟨rfl, by subst he1; exact h3⟩
  | some k => exact Or.inr ⟨k, rfl, by subst he1; exact h3⟩

/-! ### Claim C4 — find_last on an empty composite -/

/-- C4: `NonTerminalNode::find_last` panics on an empty object
(`obj.last().unwrap()`, modelled as `none`) while it is total on an empty
array, and `move_up` reaches it: on `[{},1]` with the cursor on `1`, the
previous sibling is the empty visible object and `next_node_up` panics. -/
theorem find_last_panics_on_empty_object :
    NonTerminalNode.find_last (.object []) = none ∧
    NonTerminalNode.find_last (.array []) = some none ∧
    nextNodeUp treeEmptyObjUp = none := by
  refine ⟨rfl, rfl, rfl⟩

/-! ### Claim C10 — every completed move highlights the current node -/

/-- C10: after any single completed `next_node_down` or `next_node_up` call —
including one that returns `none` because the cursor is already at the end of
the visible order — the node the cursor rests on has `highlighted = true`
(both functions end by setting the flag on the current node unconditionally,
so a highlight switched off via `toggle_current_node_highlight` comes back on
even when the cursor does not move). -/
theorem move_highlights_current (t : Tree) :
    (∀ t2 r, nextNodeDown t = some (t2, r) →
      ∃ n, t2.slotMap[t2.currentNode]? = some n ∧ n.highlighted = true) ∧
    (∀ t2 r, nextNodeUp t = some (t2, r) →
      ∃ n, t2.slotMap[t2.currentNode]? = some n ∧ n.highlighted = true) := by
  have final : ∀ (tm t2 : Tree), setHighlight tm tm.currentNode true = some t2 →
      ∃ n, t2.slotMap[t2.currentNode]? = some n ∧ n.highlighted = true := by
    intro tm t2 hset
    obtain ⟨-, hcur, -, n, -, hget, -⟩ := setHighlight_eq_some hset
    exact ⟨{ n with highlighted := true }, by rw [hcur]; exact hget, rfl⟩
  constructor
  · intro t2 r h
    obtain ⟨t1, -, hrest⟩ := nextNodeDown_shape h
    rcases hrest with ⟨-, hset⟩ | ⟨k, -, hset⟩
    · exact final t1 t2 hset
    · exact final { t1 with currentNode := k } t2 hset
  · intro t2 r h
    obtain ⟨t1, -, hrest⟩ := nextNodeUp_shape h
    rcases hrest with ⟨-, hset⟩ | ⟨k, -, hset⟩
    · exact final t1 t2 hset
    · exact final { t1 with currentNode := k } t2 hset

/-- C10 witness: on the single-null document with its highlight toggled off,
`move_down` does not move the cursor but still highlights it. -/
theorem move_highlights_current_witness :
    ∃ n, treeNull.slotMap[treeNull.currentNode]? = some n ∧ n.highlighted = true :=
  (move_highlights_current treeNullOff).1 treeNull none (by decide)

/-! ### Claim C9 — visibility toggle -/

/-- C9: `toggle_current_node_visibility` is the identity when the current node
is a terminal, and on a composite it replaces exactly the current slot by the
same node with `visible` negated — parent, highlight, children, every other
slot, the root and the cursor are untouched. -/
theorem toggle_visibility_frame (t : Tree) :
    (∀ np nh v, t.slotMap[t.currentNode]? = some ⟨np, nh, .terminal v⟩ →
      toggleCurrentNodeVisibility t = some t) ∧
    (∀ np nh vis ntn,
      t.slotMap[t.currentNode]? = some ⟨np, nh, .nonTerminal ⟨vis, ntn⟩⟩ →
      ∃ t2, toggleCurrentNodeVisibility t = some t2 ∧
        t2.root = t.root ∧ t2.currentNode = t.currentNode ∧
        t2.slotMap.length = t.slotMap.length ∧
        t2.slotMap[t.currentNode]? = some ⟨np, nh, .nonTerminal ⟨!vis, ntn⟩⟩ ∧
        ∀ j, j ≠ t.currentNode → t2.slotMap[j]? = t.slotMap[j]?) := by
  constructor
  · intro np nh v h
    simp only [toggleCurrentNodeVisibility, h]
  · intro np nh vis ntn h
    have hk : t.currentNode < t.slotMap.length := (List.getElem?_eq_some_iff.mp h).1
    refine ⟨{ t with slotMap :=
        t.slotMap.set t.currentNode ⟨np, nh, .nonTerminal ⟨!vis, ntn⟩⟩ },
      ?_, rfl, rfl, by simp, ?_, ?_⟩
    · simp only [toggleCurrentNodeVisibility, h]
    · simp [List.getElem?_set_self hk]
    · intro j hj
      simp [List.getElem?_set_ne (fun he => hj he.symm)]

/-- C9 witness: applied to `[1,2]` with the cursor on the root array. -/
theorem toggle_visibility_frame_witness :
    ∃ t2, toggleCurrentNodeVisibility treeTwoAtRoot = some t2 ∧
      t2.root = treeTwoAtRoot.root ∧ t2.currentNode = treeTwoAtRoot.currentNode ∧
      t2.slotMap.length = treeTwoAtRoot.slotMap.length ∧
      t2.slotMap[treeTwoAtRoot.currentNode]? =
        some ⟨none, true, .nonTerminal ⟨!true, .array [1, 2]⟩⟩ ∧
      ∀ j, j ≠ treeTwoAtRoot.currentNode →
        t2.slotMap[j]? = treeTwoAtRoot.slotMap[j]? :=
  (toggle_visibility_frame treeTwoAtRoot).2 none true true (.array [1, 2]) (by decide)

/-! ### Claim C5 — the single-highlight invariant -/

/-- `OneHighlighted` from a bounded check, so concrete instances can be
established by `decide`. -/
theorem oneHighlighted_of_bounded {t : Tree}
    (h1 : ∃ n, t.slotMap[t.currentNode]? = some n)
    (h2 : ∀ k, (hk : k < t.slotMap.length) →
      ((t.slotMap.get ⟨k, hk⟩).highlighted = true ↔ k = t.currentNode)) :
    OneHighlighted t := by
  refine ⟨h1, ?_⟩
  intro k n hk
  obtain ⟨hlt, he⟩ := List.getElem?_eq_some_iff.mp hk
  subst he
  exact h2 k hlt

theorem oneHighlighted_step {t t2 : Tree} {m : Move}
    (hinv : OneHighlighted t) (h : applyMove t m = some t2) : OneHighlighted t2 := by
  have main : ∀ tm : Tree,
      setHighlight t t.currentNode false = some tm →
      ∀ x tn, setHighlight { tm with currentNode := x } x true = some tn ∨
          (x = tm.currentNode ∧ setHighlight tm tm.currentNode true = some tn) →
      OneHighlighted tn := by
    intro tm hm x tn hx
    -- `tm` is `t` with the only highlight cleared
    obtain ⟨-, hmc, -, nc, hnc, hncset, hother⟩ := setHighlight_eq_some hm
    have hm_all : ∀ (j : Key) (n : Node), tm.slotMap[j]? = some n → n.highlighted = false := by
      intro j n hj
      by_cases hjc : j = t.currentNode
      · subst hjc; rw [hncset] at hj; cases hj; rfl
      · rw [hother j hjc] at hj
        have := (hinv.2 j n hj)
        cases hn : n.highlighted
        · rfl
        · exact absurd (this.mp hn) hjc
    have step2 : ∀ (tmid : Tree), (∀ (j : Key) (n : Node), tmid.slotMap[j]? = some n → n.highlighted = false) →
        ∀ tn, setHighlight tmid tmid.currentNode true = some tn → OneHighlighted tn := by
      intro tmid hall tn hset
      obtain ⟨-, hcur, -, n, hget, hset2, hoth⟩ := setHighlight_eq_some hset
      constructor
      · exact ⟨{ n with highlighted := true }, by rw [hcur]; exact hset2⟩
      · intro j nj hj
        rw [hcur]
        by_cases hjc : j = tmid.currentNode
        · subst hjc; rw [hset2] at hj; cases hj; simp
        · rw [hoth j hjc] at hj
          simp [hall j nj hj, hjc]
    rcases hx with hx | ⟨rfl, hx⟩
    · exact step2 { tm with currentNode := x } (fun j n hj => hm_all j n hj) tn hx
    · exact step2 tm hm_all tn hx
  cases m with
  | down =>
    simp only [applyMove, Option.map_eq_some'] at h
    obtain ⟨⟨t3, r⟩, hd, he⟩ := h
    subst he
    obtain ⟨t1, h1, hrest⟩ := nextNodeDown_shape hd
    rcases hrest with ⟨-, hset⟩ | ⟨k, -, hset⟩
    · exact main t1 h1 t1.currentNode t3 (Or.inr ⟨rfl, hset⟩)
    · exact main t1 h1 k t3 (Or.inl hset)
  | up =>
    simp only [applyMove, Option.map_eq_some'] at h
    obtain ⟨⟨t3, r⟩, hd, he⟩ := h
    subst he
    obtain ⟨t1, h1, hrest⟩ := nextNodeUp_shape hd
    rcases hrest with ⟨-, hset⟩ | ⟨k, -, hset⟩
    · exact main t1 h1 t1.currentNode t3 (Or.inr ⟨rfl, hset⟩)
    · exact main t1 h1 k t3 (Or.inl hset)

/-- C5: starting from a state in which exactly one node is highlighted (the
current node), any finite sequence of completed `move_down`/`move_up` calls
ends in a state in which exactly one node is highlighted, and it is the
current node. -/
theorem one_highlighted_preserved {t t2 : Tree} {ms : List Move}
    (hinv : OneHighlighted t) (h : applyMoves t ms = some t2) : OneHighlighted t2 := by
  induction ms generalizing t with
  | nil => cases h; exact hinv
  | cons m ms ih =>
    unfold applyMoves at h
    cases hm : applyMove t m with
    | none => rw [hm] at h; exact absurd h (by simp)
    | some t3 =>
      rw [hm] at h
      exact ih (oneHighlighted_step hinv hm) h

/-- C5 witness: two moves (down then up) on `[1,2]` starting at the root. -/
theorem one_highlighted_preserved_witness : OneHighlighted treeTwoAtRoot :=
  @one_highlighted_preserved treeTwoAtRoot treeTwoAtRoot [Move.down, Move.up]
    (oneHighlighted_of_bounded ⟨_, rfl⟩ (by decide))
    (by decide)

/-- `next_node_up` computes exactly the predecessor of the current node in the
spec's visible order, and otherwise changes only highlights and the cursor. -/
theorem up_spec {t : Tree} {kt : KTree} (hrep : Rep t none kt) (hnd : kt.keys.Nodup)
    (hne : kt.noEmptyB = true) (hc : t.currentNode ∈ kt.vo) :
    ∃ t3, nextNodeUp t = some (t3, listPred kt.vo t.currentNode) ∧
      Rep t3 none kt ∧ t3.root = t.root ∧ t3.slotMap.length = t.slotMap.length ∧
      t3.currentNode = (listPred kt.vo t.currentNode).getD t.currentNode := by
  obtain ⟨fs, st, hplug, hkey, hfr⟩ := vo_decomp kt t.currentNode hc
  obtain ⟨n0, hgetc⟩ := rep_keys_valid hrep t.currentNode (vo_subset_keys hc)
  obtain ⟨t1, ht1⟩ : ∃ t1, setHighlight t t.currentNode false = some t1 :=
    ⟨_, setHighlight_some_of_mem (b := false) hgetc⟩
  obtain ⟨hroot1, hcur1, hlen1, nx, hnx, hnxset, hoth1⟩ := setHighlight_eq_some ht1
  have hrep1 := rep_setHighlight ht1 hrep
  have hvo : kt.vo = ctxBefore fs ++ st.vo ++ ctxAfter fs := by
    rw [← hplug]; exact vo_plug fs st hfr
  have hvond : kt.vo.Nodup := hnd.sublist (vo_sublist_keys kt)
  have hcv : ∃ n2, t1.slotMap[t1.currentNode]? = some n2 :=
    ⟨_, by rw [hcur1]; exact hnxset⟩
  obtain ⟨stl, hstvo⟩ := vo_head st
  rw [hkey] at hstvo
  cases fs with
  | nil =>
    have hst : st = kt := hplug
    obtain ⟨n1x, hget1x, hpar1x⟩ := rep_get (rep_setHighlight ht1 (hst ▸ hrep))
    rw [hkey, hnxset] at hget1x
    have hparcur : ({ nx with highlighted := false } : Node).parent = none := by
      rw [← Option.some.inj hget1x] at hpar1x
      exact hpar1x
    have heq := nextNodeUp_eq_root ht1 hnxset hparcur
    have hpred : listPred kt.vo t.currentNode = none := by
      rw [hvo, show ctxBefore ([] : List Frame) = [] from rfl,
        show ctxAfter ([] : List Frame) = [] from rfl, List.nil_append, List.append_nil,
        hstvo]
      simp [listPred]
    exact move_finish hrep1 hroot1 hcur1 hlen1 hcv heq hpred (by simp)
  | cons f fs2 =>
    obtain ⟨pk, pvis, iso, bef, aft⟩ := f
    have hpv : pvis = true := hfr _ (List.mem_cons_self _ _)
    subst hpv
    have hplug2 : plug (Frame.subtree ⟨pk, true, iso, bef, aft⟩ st) fs2 = kt := hplug
    have hstrep1 : Rep t1 (some pk) st :=
      rep_plug (⟨pk, true, iso, bef, aft⟩ :: fs2) st none (by rw [hplug]; exact hrep1)
    obtain ⟨n1x, hget1x, hpar1x⟩ := rep_get hstrep1
    rw [hkey, hnxset] at hget1x
    have hparcur : ({ nx with highlighted := false } : Node).parent = some pk := by
      rw [← Option.some.inj hget1x] at hpar1x
      exact hpar1x
    have hsubrep1 : Rep t1 (ctxParent none fs2) (Frame.subtree ⟨pk, true, iso, bef, aft⟩ st) :=
      rep_plug fs2 _ none (by rw [hplug2]; exact hrep1)
    obtain ⟨hnodupS, hsubset⟩ := plug_keys fs2 (Frame.subtree ⟨pk, true, iso, bef, aft⟩ st)
      (by rw [hplug2]; exact hnd)
    have hkeysub := hnodupS.of_append_right
    rw [Frame.subtree_keys] at hkeysub
    have hchild : ((bef ++ st :: aft).map KTree.key).Nodup :=
      (hkeysub.of_cons).sublist (mapKey_sublist _)
    have hmapsplit : (bef ++ st :: aft).map KTree.key =
        bef.map KTree.key ++ t.currentNode :: aft.map KTree.key := by
      rw [← hkey]; simp
    have hnotin : t.currentNode ∉ bef.map KTree.key := by
      rw [hmapsplit] at hchild
      intro hm
      exact (List.nodup_cons.mp (List.nodup_middle.mp hchild)).1 (List.mem_append_left _ hm)
    have hstep : ∃ pn, t1.slotMap[pk]? = some pn ∧
        ∃ hv : HidableValue, pn.node = .nonTerminal hv ∧ hv.visible = true ∧
          hv.node.find_previous_key t.currentNode = (bef.map KTree.key).getLast? ∧
          (∀ c2 ∈ bef, Rep t1 (some pk) c2) := by
      by_cases ho : iso
      · rw [show Frame.subtree ⟨pk, true, iso, bef, aft⟩ st =
          KTree.obj pk true (bef ++ st :: aft) by simp [Frame.subtree, ho]] at hsubrep1
        cases hsubrep1 with
        | obj hgetp hes hcs =>
          refine ⟨_, hgetp, _, rfl, rfl, ?_, ?_⟩
          · exact find_previous_key_obj (by rw [hes, hmapsplit]) hnotin
          · exact fun c2 hc2 => hcs c2 (List.mem_append_left _ hc2)
      · rw [show Frame.subtree ⟨pk, true, iso, bef, aft⟩ st =
          KTree.arr pk true (bef ++ st :: aft) by simp [Frame.subtree, ho]] at hsubrep1
        cases hsubrep1 with
        | arr hgetp hcs =>
          refine ⟨_, hgetp, _, rfl, rfl, ?_, ?_⟩
          · rw [show (bef ++ st :: aft).map KTree.key =
              bef.map KTree.key ++ t.currentNode :: aft.map KTree.key from hmapsplit]
            exact find_previous_key_arr hnotin
          · exact fun c2 hc2 => hcs c2 (List.mem_append_left _ hc2)
    obtain ⟨pn, hgetp, hv, hpn, hviz, hfind, hrepbef⟩ := hstep
    have hvoB : kt.vo = (ctxBefore fs2 ++ pk :: voList bef) ++ t.currentNode ::
        (stl ++ ctxAfter (⟨pk, true, iso, bef, aft⟩ :: fs2)) := by
      rw [hvo, show ctxBefore (⟨pk, true, iso, bef, aft⟩ :: fs2) =
        ctxBefore fs2 ++ pk :: voList bef from rfl, hstvo]
      simp
    have hnotB : t.currentNode ∉ ctxBefore fs2 ++ pk :: voList bef := by
      rw [hvoB] at hvond
      exact (List.nodup_cons.mp (List.nodup_middle.mp hvond)).1 ∘ List.mem_append_left _
    have hpredB : listPred kt.vo t.currentNode =
        (ctxBefore fs2 ++ pk :: voList bef).getLast? := by
      rw [hvoB, listPred_append_cons hnotB]
    cases hbef : bef with
    | nil =>
      subst hbef
      have hfind0 : hv.node.find_previous_key t.currentNode = none := by
        simpa using hfind
      have heq := nextNodeUp_eq_sibling ht1 hnxset hparcur hgetp hpn hviz hfind0
      rw [show descendLoop t1 (some pk) (t1.slotMap.length + 1) (none : Option Key) =
        some (some pk) from rfl] at heq
      simp only [Option.some_bind] at heq
      have hpred : listPred kt.vo t.currentNode = some pk := by
        rw [hpredB, show voList ([] : List KTree) = [] from rfl]
        exact List.getLast?_concat _
      exact move_finish hrep1 hroot1 hcur1 hlen1 hcv heq hpred
        (fun k2 hr => vo_subset_keys
          (listPred_mem hvond hc (by rw [hpred, hr])).1)
    | cons b0 bef2 =>
      subst hbef
      obtain ⟨b2, p, hcat⟩ := (List.eq_nil_or_concat (b0 :: bef2)).resolve_left (by simp)
      rw [List.concat_eq_append] at hcat
      rw [hcat] at hplug2 hsubset hkeysub hfind hpredB hrepbef
      have heq := nextNodeUp_eq_sibling ht1 hnxset hparcur hgetp hpn hviz hfind
      have hq : ((b2 ++ [p]).map KTree.key).getLast? = some p.key := by
        rw [List.map_append, List.map_cons, List.map_nil]
        exact List.getLast?_concat _
      rw [hq] at heq
      have hrepp : Rep t1 (some pk) p := hrepbef p (by simp)
      have hnem := noEmpty_plug fs2 (Frame.subtree ⟨pk, true, iso, b2 ++ [p], aft⟩ st)
        (by rw [hplug2]; exact hne)
      have hparts : noEmptyList ((b2 ++ [p]) ++ st :: aft) = true := by
        by_cases ho : iso
        · rw [show Frame.subtree ⟨pk, true, iso, b2 ++ [p], aft⟩ st =
            KTree.obj pk true ((b2 ++ [p]) ++ st :: aft) by
              simp [Frame.subtree, ho]] at hnem
          exact (noEmptyB_comp_parts (Or.inr hnem)).2
        · rw [show Frame.subtree ⟨pk, true, iso, b2 ++ [p], aft⟩ st =
            KTree.arr pk true ((b2 ++ [p]) ++ st :: aft) by
              simp [Frame.subtree, ho]] at hnem
          exact (noEmptyB_comp_parts (Or.inl hnem)).2
      have hnep : p.noEmptyB = true := noEmptyList_mem (by simp) hparts
      have hsub2 : ∀ x ∈ p.keys, x ∈ kt.keys := by
        intro x hx
        have h1 : x ∈ keysList ((b2 ++ [p]) ++ st :: aft) :=
          mem_keysList_of_mem (by simp) hx
        have h2 : x ∈ (Frame.subtree ⟨pk, true, iso, b2 ++ [p], aft⟩ st).keys := by
          rw [Frame.subtree_keys]
          exact List.mem_cons_of_mem _ h1
        have h3 := hsubset x (List.mem_append_right _ h2)
        rw [hplug2] at h3
        exact h3
      have hpnodup : p.keys.Nodup := by
        have h5 : p.keys.Sublist (keysList ((b2 ++ [p]) ++ st :: aft)) := by
          rw [keysList_append, keysList_append,
            show keysList [p] = p.keys ++ [] from rfl, List.append_nil]
          exact (List.sublist_append_right _ _).trans (List.sublist_append_left _ _)
        exact (hkeysub.of_cons).sublist h5
      have hpbound : p.keys.length ≤ t1.slotMap.length := by
        have hb : ∀ x ∈ p.keys, x < t1.slotMap.length := by
          intro x hx
          obtain ⟨nn, hnn⟩ := rep_keys_valid hrep1 x (hsub2 x hx)
          exact (List.getElem?_eq_some_iff.mp hnn).1
        exact nodup_lt_length hpnodup hb
      obtain ⟨lk, hloop, hlast⟩ := descend_spec (t1.slotMap.length + 1) p (some pk)
        hrepp hnep (by omega)
      rw [hloop] at heq
      simp only [Option.some_bind] at heq
      have hpred : listPred kt.vo t.currentNode = some lk := by
        rw [hpredB, show voList (b2 ++ [p]) = voList b2 ++ voList [p] from
          voList_append b2 [p],
          show voList [p] = p.vo ++ voList [] from rfl,
          show voList ([] : List KTree) = [] from rfl, List.append_nil]
        rw [show ctxBefore fs2 ++ pk :: (voList b2 ++ p.vo) =
          (ctxBefore fs2 ++ pk :: voList b2) ++ p.vo by simp]
        rw [List.getLast?_append, hlast]
        rfl
      exact move_finish hrep1 hroot1 hcur1 hlen1 hcv heq hpred
        (fun k2 hr => vo_subset_keys
          (listPred_mem hvond hc (by rw [hpred, hr])).1)


/-! ### C2 and C6: the two moves against the visible order -/

/-- The arena of `treeTwoAtLast` realizes the shape `[1,2]`. -/
theorem rep_treeTwoAtLast : Rep treeTwoAtLast none ktTwo := by
  refine Rep.arr rfl ?_
  intro c hc
  rcases List.mem_cons.mp hc with rfl | hc2
  · exact Rep.term rfl
  rcases List.mem_cons.mp hc2 with rfl | hc3
  · exact Rep.term rfl
  · simp at hc3

/-- The arena of `treeTwoAtMid` realizes the shape `[1,2]`. -/
theorem rep_treeTwoAtMid : Rep treeTwoAtMid none ktTwo := by
  refine Rep.arr rfl ?_
  intro c hc
  rcases List.mem_cons.mp hc with rfl | hc2
  · exact Rep.term rfl
  rcases List.mem_cons.mp hc2 with rfl | hc3
  · exact Rep.term rfl
  · simp at hc3

/-- The arena of `treeEmptyArrDown` realizes the shape `[[],5]`. -/
theorem rep_treeEmptyArrDown : Rep treeEmptyArrDown none ktEmptyArr := by
  refine Rep.arr rfl ?_
  intro c hc
  rcases List.mem_cons.mp hc with rfl | hc2
  · exact Rep.arr rfl (by intro c2 hc2; simp at hc2)
  rcases List.mem_cons.mp hc2 with rfl | hc3
  · exact Rep.term rfl
  · simp at hc3

/-- C2 counterexample: in the document `[1,2]` with the cursor on the terminal
`2` — a node that is *not the first* of the visible order `[0,1,2]`, as the
claim requires — `move_down` does not move (the cursor is at the last node),
and the subsequent `move_up` moves the cursor to `1`, not back to `2`. The
claim pairs "down then up" with non-firstness, but the round trip needs
non-lastness (and symmetrically for "up then down"). -/
theorem down_up_not_inverse :
    Rep treeTwoAtLast none ktTwo ∧ ktTwo.keys.Nodup ∧ ktTwo.noEmptyB = true ∧
    treeTwoAtLast.currentNode ∈ ktTwo.vo ∧
    ktTwo.vo.head? ≠ some treeTwoAtLast.currentNode ∧
    ((nextNodeDown treeTwoAtLast).bind (fun pr => nextNodeUp pr.1)).map
      (fun pr => pr.1.currentNode) = some 1 ∧
    treeTwoAtLast.currentNode = 2 :=
  ⟨rep_treeTwoAtLast, by decide, by decide, by decide, by decide, by decide, rfl⟩

/-- **C2** (corrected): on a well-formed arena without empty composites,
`next_node_down` and `next_node_up` are exact inverses along the visible
order, with the conditions stated on the *first* move: down-then-up returns
the cursor to the original node from any node that is not the **last** of the
visible order (i.e. whenever the successor exists), and up-then-down from any
node that is not the **first** (whenever the predecessor exists) — not
non-first/non-last as the claim pairs them. -/
theorem move_inverse {t : Tree} {kt : KTree} (hrep : Rep t none kt)
    (hnd : kt.keys.Nodup) (hne : kt.noEmptyB = true) (hc : t.currentNode ∈ kt.vo) :
    (∀ k, listSucc kt.vo t.currentNode = some k →
      ∃ t2 t3, nextNodeDown t = some (t2, some k) ∧
        nextNodeUp t2 = some (t3, some t.currentNode) ∧
        t3.currentNode = t.currentNode ∧ t2.currentNode = k) ∧
    (∀ k, listPred kt.vo t.currentNode = some k →
      ∃ t2 t3, nextNodeUp t = some (t2, some k) ∧
        nextNodeDown t2 = some (t3, some t.currentNode) ∧
        t3.currentNode = t.currentNode ∧ t2.currentNode = k) := by
  have hvond : kt.vo.Nodup := hnd.sublist (vo_sublist_keys kt)
  constructor
  · intro k hk
    obtain ⟨t2, hdown, hrep2, hroot2, hlen2, hcur2⟩ := down_spec hrep hnd hne hc
    rw [hk] at hdown hcur2
    have hcur2x : t2.currentNode = k := by simpa using hcur2
    have hk2 : t2.currentNode ∈ kt.vo := by
      rw [hcur2x]; exact (listSucc_mem hvond hc hk).1
    obtain ⟨t3, hup, hrep3, hroot3, hlen3, hcur3⟩ := up_spec hrep2 hnd hne hk2
    have hpred : listPred kt.vo t2.currentNode = some t.currentNode := by
      rw [hcur2x]; exact listPred_of_listSucc hvond hc hk
    rw [hpred] at hup hcur3
    exact ⟨t2, t3, hdown, hup, by simpa using hcur3, hcur2x⟩
  · intro k hk
    obtain ⟨t2, hup, hrep2, hroot2, hlen2, hcur2⟩ := up_spec hrep hnd hne hc
    rw [hk] at hup hcur2
    have hcur2x : t2.currentNode = k := by simpa using hcur2
    have hk2 : t2.currentNode ∈ kt.vo := by
      rw [hcur2x]; exact (listPred_mem hvond hc hk).1
    obtain ⟨t3, hdown, hrep3, hroot3, hlen3, hcur3⟩ := down_spec hrep2 hnd hne hk2
    have hsucc : listSucc kt.vo t2.currentNode = some t.currentNode := by
      rw [hcur2x]; exact listSucc_of_listPred hvond hc hk
    rw [hsucc] at hdown hcur3
    exact ⟨t2, t3, hup, hdown, by simpa using hcur3, hcur2x⟩

/-- C2 witness: in `[1,2]` with the cursor on `1` (successor `2` in the
visible order), `move_down` lands on `2` and `move_up` returns to `1`. -/
theorem move_inverse_witness :
    ∃ t2 t3, nextNodeDown treeTwoAtMid = some (t2, some 2) ∧
      nextNodeUp t2 = some (t3, some treeTwoAtMid.currentNode) ∧
      t3.currentNode = treeTwoAtMid.currentNode ∧ t2.currentNode = 2 :=
  (move_inverse rep_treeTwoAtMid (by decide) (by decide) (by decide)).1 2 (by decide)

/-- C6 counterexample: in the document `[[],5]` with the cursor on the empty
visible array (a well-formed arena), `move_down` reports "no move" (returns
`none` and leaves the cursor at `1`) even though the cursor is *not* at the
last node of the visible order `[0,1,2]` — the claimed equivalence "`none` iff
already at the last node" fails on empty composites. -/
theorem move_none_claim_false :
    Rep treeEmptyArrDown none ktEmptyArr ∧ ktEmptyArr.keys.Nodup ∧
    treeEmptyArrDown.currentNode ∈ ktEmptyArr.vo ∧
    ktEmptyArr.vo.getLast? ≠ some treeEmptyArrDown.currentNode ∧
    (nextNodeDown treeEmptyArrDown).map (fun pr => (pr.1.currentNode, pr.2)) =
      some (treeEmptyArrDown.currentNode, none) :=
  ⟨rep_treeEmptyArrDown, by decide, by decide, by decide, by decide⟩

/-- **C6** (corrected): on a well-formed arena **without empty composites**,
`next_node_down`/`next_node_up` return `none` exactly when the cursor is at
the last, respectively first, node of the visible order; on `none` the cursor
is unchanged, and a returned `some` handle is the new current node. The
restriction is necessary: with an empty visible composite under the cursor,
`move_down` returns `none` while not at the last node (and panics on an empty
object). -/
theorem move_none_iff {t : Tree} {kt : KTree} (hrep : Rep t none kt)
    (hnd : kt.keys.Nodup) (hne : kt.noEmptyB = true) (hc : t.currentNode ∈ kt.vo) :
    (∃ t2 r, nextNodeDown t = some (t2, r) ∧
      (r = none ↔ kt.vo.getLast? = some t.currentNode) ∧
      (r = none → t2.currentNode = t.currentNode) ∧
      ∀ k, r = some k → t2.currentNode = k) ∧
    (∃ t2 r, nextNodeUp t = some (t2, r) ∧
      (r = none ↔ kt.vo.head? = some t.currentNode) ∧
      (r = none → t2.currentNode = t.currentNode) ∧
      ∀ k, r = some k → t2.currentNode = k) := by
  have hvond : kt.vo.Nodup := hnd.sublist (vo_sublist_keys kt)
  constructor
  · obtain ⟨t2, hdown, hrep2, hroot2, hlen2, hcur2⟩ := down_spec hrep hnd hne hc
    refine ⟨t2, _, hdown, listSucc_none_iff hvond hc, ?_, ?_⟩
    · intro hr; rw [hr] at hcur2; simpa using hcur2
    · intro k hr; rw [hr] at hcur2; simpa using hcur2
  · obtain ⟨t2, hup, hrep2, hroot2, hlen2, hcur2⟩ := up_spec hrep hnd hne hc
    refine ⟨t2, _, hup, listPred_none_iff hvond hc, ?_, ?_⟩
    · intro hr; rw [hr] at hcur2; simpa using hcur2
    · intro k hr; rw [hr] at hcur2; simpa using hcur2

/-- C6 witness: in `[1,2]` with the cursor on `1`, `move_down` returns a
`some` handle (the cursor is not last), and that handle is the new current
node. -/
theorem move_none_iff_witness :
    ∃ t2 r, nextNodeDown treeTwoAtMid = some (t2, r) ∧
      (r = none ↔ ktTwo.vo.getLast? = some treeTwoAtMid.currentNode) ∧
      (r = none → t2.currentNode = treeTwoAtMid.currentNode) ∧
      ∀ k, r = some k → t2.currentNode = k :=
  (move_none_iff rep_treeTwoAtMid (by decide) (by decide) (by decide)).1

end JsonTui
